import Mathlib

/-
Verification of the tooey TUI framework core (Go) against its specification.

The Go source is shallowly embedded:
 * bytes are `Nat` (always < 256 in real inputs),
 * Go strings are byte lists (`List Nat`) on the input side and rune lists
   (`List Char`) on the layout side,
 * Go `int` is `Int`, with Go's truncating division written explicitly,
 * the input parser's main loop (a cursor walking a byte slice) becomes a
   step function plus a well-founded driver over the remaining suffix.
-/

namespace Tooey

/-! ## Input parser: data model (input.go) -/

/-- Embeds input.KeyType (input.go): the kind of a key event. -/
inductive KeyType where
  | RuneKey | Up | Down | Left | Right | Tab | ShiftTab | Enter | Escape
  | Backspace | Delete | Home | End | PageUp | PageDown
  | CtrlC | CtrlD | CtrlZ | ShiftEnter | FocusIn | FocusOut
  | MouseClick | MouseScrollUp | MouseScrollDown
  | AltLeft | AltRight | AltUp | AltDown | Paste
  deriving DecidableEq, Repr

/-- Embeds input.Key: a keyboard input event. `rune` is the decoded code
point (Go `rune`), `text` the pasted bytes (Go `string` is a byte sequence). -/
structure Key where
  type : KeyType
  rune : Nat := 0
  text : List Nat := []
  deriving DecidableEq, Repr

/-- Go's zero value Key{} (Type RuneKey, Rune 0, empty Text). -/
def zeroKey : Key := ⟨KeyType.RuneKey, 0, []⟩

/-- input.pasteStart: ESC [ 2 0 0 ~ (bracketed paste open marker). -/
def pasteStart : List Nat := [0x1b, 0x5b, 0x32, 0x30, 0x30, 0x7e]

/-- input.pasteEnd: ESC [ 2 0 1 ~ (bracketed paste close marker). -/
def pasteEnd : List Nat := [0x1b, 0x5b, 0x32, 0x30, 0x31, 0x7e]

/-- Bytewise comparison: does `data` begin with `pre`?  (The elementwise
loop shared by input.hasPrefixAt and input.indexBytes.) -/
def startsWith : List Nat → List Nat → Bool
  | [], _ => true
  | _ :: _, [] => false
  | p :: ps, d :: ds => p = d && startsWith ps ds

/-- Embeds input.hasPrefixAt: data[offset:] starts with pre (false when
offset+len(pre) overruns data). -/
def hasPrefixAt (data : List Nat) (offset : Nat) (pre : List Nat) : Bool :=
  decide (offset + pre.length ≤ data.length) && startsWith pre (data.drop offset)

/-- Embeds input.indexBytes: index of the first occurrence of `needle` in
`haystack`; `none` stands for Go's -1. -/
def indexBytes (haystack needle : List Nat) : Option Nat :=
  match haystack with
  | [] => if needle = [] then some 0 else none
  | h :: t =>
    if startsWith needle (h :: t) then some 0
    else (indexBytes t needle).map (· + 1)

/-- Continuation-byte accumulation loop of input.decodeRune: having read a
lead byte giving initial bits `r` and total length `size`, fold the
continuation bytes; a short buffer yields ('?', 1). -/
def decodeRuneTail (r : Nat) (size : Nat) (data : List Nat) : Nat × Nat :=
  if data.length < size then (0x3f, 1)
  else (((data.take size).drop 1).foldl (fun acc b => acc <<< 6 ||| (b &&& 0x3f)) r, size)

/-- Embeds input.decodeRune: decode one UTF-8 rune from the front of data,
returning (rune, bytes consumed). Continuation bytes are not validated. -/
def decodeRune : List Nat → Nat × Nat
  | [] => (0, 0)
  | b :: rest =>
    if b < 0x80 then (b, 1)
    else if b &&& 0xe0 = 0xc0 then decodeRuneTail (b &&& 0x1f) 2 (b :: rest)
    else if b &&& 0xf0 = 0xe0 then decodeRuneTail (b &&& 0x0f) 3 (b :: rest)
    else if b &&& 0xf8 = 0xf0 then decodeRuneTail (b &&& 0x07) 4 (b :: rest)
    else (0x3f, 1)

/-- Digit-accumulating loop of input.parseSGRButton. -/
def sgrButtonAux : List Nat → Nat → Nat
  | [], n => n
  | b :: bs, n =>
    if b = 0x3b then n
    else if 0x30 ≤ b ∧ b ≤ 0x39 then sgrButtonAux bs (n * 10 + (b - 0x30))
    else sgrButtonAux bs n

/-- Embeds input.parseSGRButton: button number from SGR mouse data like "64;10;20". -/
def parseSGRButton (data : List Nat) : Nat := sgrButtonAux data 0

/-- Scan loop of the SGR-mouse branch of input.parseCSI: position of the
first 'M' or 'm', counting from start index `j`. -/
def sgrScan : List Nat → Nat → Option Nat
  | [], _ => none
  | b :: bs, j => if b = 0x4d ∨ b = 0x6d then some j else sgrScan bs (j + 1)

/-- Button-to-key mapping shared by both mouse branches of input.parseCSI. -/
def mouseKeyType (btn : Nat) : KeyType :=
  if btn = 64 then KeyType.MouseScrollUp
  else if btn = 65 then KeyType.MouseScrollDown
  else KeyType.MouseClick

/-- Legacy-mouse tail of input.parseCSI: ESC [ M btn x y; the button byte
is decremented by 32 with Go byte wraparound. -/
def legacyMouse (data : List Nat) : Key × Nat :=
  match data with
  | 0x4d :: b :: _ :: _ :: _ => (⟨mouseKeyType ((b + 256 - 32) % 256), 0, []⟩, 4)
  | _ => (zeroKey, 0)

/-- Multi-byte tail of input.parseCSI (alt arrows, ~-sequences, kitty
Shift+Enter, SGR mouse), in the source's test order; patterns are disjoint. -/
def parseCSIRest (data : List Nat) : Key × Nat :=
  match data with
  | 0x31 :: 0x3b :: 0x33 :: 0x41 :: _ => (⟨KeyType.AltUp, 0, []⟩, 4)
  | 0x31 :: 0x3b :: 0x33 :: 0x42 :: _ => (⟨KeyType.AltDown, 0, []⟩, 4)
  | 0x31 :: 0x3b :: 0x33 :: 0x43 :: _ => (⟨KeyType.AltRight, 0, []⟩, 4)
  | 0x31 :: 0x3b :: 0x33 :: 0x44 :: _ => (⟨KeyType.AltLeft, 0, []⟩, 4)
  | 0x33 :: 0x7e :: _ => (⟨KeyType.Delete, 0, []⟩, 2)
  | 0x35 :: 0x7e :: _ => (⟨KeyType.PageUp, 0, []⟩, 2)
  | 0x36 :: 0x7e :: _ => (⟨KeyType.PageDown, 0, []⟩, 2)
  | 0x31 :: 0x33 :: 0x3b :: 0x32 :: 0x75 :: _ => (⟨KeyType.ShiftEnter, 0, []⟩, 5)
  | 0x3c :: rest =>
    (match sgrScan rest 1 with
     | some j => (⟨mouseKeyType (parseSGRButton (rest.take (j - 1))), 0, []⟩, j + 1)
     | none => legacyMouse data)
  | _ => legacyMouse data

/-- Embeds input.parseCSI: parse the bytes after ESC [, returning the key
and the number of bytes consumed (0 = unrecognized). -/
def parseCSI (data : List Nat) : Key × Nat :=
  match data with
  | [] => (zeroKey, 0)
  | 0x41 :: _ => (⟨KeyType.Up, 0, []⟩, 1)
  | 0x42 :: _ => (⟨KeyType.Down, 0, []⟩, 1)
  | 0x43 :: _ => (⟨KeyType.Right, 0, []⟩, 1)
  | 0x44 :: _ => (⟨KeyType.Left, 0, []⟩, 1)
  | 0x48 :: _ => (⟨KeyType.Home, 0, []⟩, 1)
  | 0x46 :: _ => (⟨KeyType.End, 0, []⟩, 1)
  | 0x5a :: _ => (⟨KeyType.ShiftTab, 0, []⟩, 1)
  | 0x49 :: _ => (⟨KeyType.FocusIn, 0, []⟩, 1)
  | 0x4f :: _ => (⟨KeyType.FocusOut, 0, []⟩, 1)
  | _ => parseCSIRest data

/-- Scan loop of input.skipCSI over the bytes after ESC [, carrying the
current index; returns j+1 at the first final byte (0x40..0x7E). -/
def skipCSIAux : List Nat → Nat → Nat
  | [], _ => 0
  | b :: bs, j => if 0x40 ≤ b ∧ b ≤ 0x7e then j + 1 else skipCSIAux bs (j + 1)

/-- Embeds input.skipCSI: bytes to skip past an unrecognized CSI sequence
(0 when no final byte is present). -/
def skipCSI (data : List Nat) : Nat := skipCSIAux data 0

/-- Result of one iteration of the input.parseInput loop: `emit ks c`
appends keys ks and advances the cursor by c bytes; `stop ks` returns from
the loop (partial paste spanning reads). -/
inductive StepRes where
  | emit (ks : List Key) (consumed : Nat)
  | stop (ks : List Key)
  deriving DecidableEq, Repr

/-- ESC fallthrough of the parseInput loop: Alt+Enter (ESC CR / ESC LF)
becomes ShiftEnter over two bytes, anything else a bare Escape over one. -/
def escFallback (rest : List Nat) : StepRes :=
  match rest with
  | 0x0d :: _ => StepRes.emit [⟨KeyType.ShiftEnter, 0, []⟩] 2
  | 0x0a :: _ => StepRes.emit [⟨KeyType.ShiftEnter, 0, []⟩] 2
  | _ => StepRes.emit [⟨KeyType.Escape, 0, []⟩] 1

/-- One iteration of the input.parseInput loop, acting on the suffix of the
input that starts at the loop's cursor (the loop body only ever reads
data[i:], so it is a pure function of that suffix). -/
def parseStep : List Nat → StepRes
  | [] => StepRes.stop []
  | b :: rest =>
    if hasPrefixAt (b :: rest) 0 pasteStart then
      match indexBytes ((b :: rest).drop pasteStart.length) pasteEnd with
      | some e =>
        StepRes.emit [⟨KeyType.Paste, 0, ((b :: rest).drop pasteStart.length).take e⟩]
          (pasteStart.length + e + pasteEnd.length)
      | none => StepRes.stop []
    else if b = 0x1b then
      (match rest with
       | 0x5b :: csi =>
         let pc := parseCSI csi
         if 0 < pc.2 then StepRes.emit [pc.1] (2 + pc.2)
         else
           let sk := skipCSI csi
           if 0 < sk then StepRes.emit [] (2 + sk)
           else escFallback rest
       | _ => escFallback rest)
    else if b = 0x0d then StepRes.emit [⟨KeyType.Enter, 0, []⟩] 1
    else if b = 0x0a then StepRes.emit [⟨KeyType.ShiftEnter, 0, []⟩] 1
    else if b = 0x09 then StepRes.emit [⟨KeyType.Tab, 0, []⟩] 1
    else if b = 0x7f ∨ b = 0x08 then StepRes.emit [⟨KeyType.Backspace, 0, []⟩] 1
    else if b = 0x03 then StepRes.emit [⟨KeyType.CtrlC, 0, []⟩] 1
    else if b = 0x04 then StepRes.emit [⟨KeyType.CtrlD, 0, []⟩] 1
    else if b = 0x1a then StepRes.emit [⟨KeyType.CtrlZ, 0, []⟩] 1
    else if 0x20 ≤ b then
      StepRes.emit [⟨KeyType.RuneKey, (decodeRune (b :: rest)).1, []⟩] (decodeRune (b :: rest)).2
    else StepRes.emit [] 1

theorem decodeRuneTail_consumed_pos (r size : Nat) (data : List Nat) (hs : 1 ≤ size) :
    1 ≤ (decodeRuneTail r size data).2 := by
  unfold decodeRuneTail
  split
  · simp
  · simpa using hs

theorem decodeRune_consumed_pos (data : List Nat) (h : data ≠ []) :
    1 ≤ (decodeRune data).2 := by
  cases data with
  | nil => simp at h
  | cons b rest =>
    simp only [decodeRune]
    split
    · simp
    split
    · exact decodeRuneTail_consumed_pos _ _ _ (by omega)
    split
    · exact decodeRuneTail_consumed_pos _ _ _ (by omega)
    split
    · exact decodeRuneTail_consumed_pos _ _ _ (by omega)
    · simp

theorem escFallback_consumed_pos (rest : List Nat) :
    ∀ ks c, escFallback rest = StepRes.emit ks c → 1 ≤ c := by
  intro ks c h
  unfold escFallback at h
  split at h <;> (injection h with h1 h2; omega)

theorem parseStep_consumed_pos (data : List Nat) :
    ∀ ks c, parseStep data = StepRes.emit ks c → 1 ≤ c := by
  intro ks c h
  cases data with
  | nil => simp [parseStep] at h
  | cons b rest =>
    simp only [parseStep] at h
    split at h
    · -- bracketed-paste branch
      split at h
      · injection h with h1 h2
        simp only [pasteStart, pasteEnd, List.length_cons, List.length_nil] at h2
        omega
      · cases h
    split at h
    · -- ESC branch
      split at h
      · -- ESC [ : CSI handling
        split at h
        · injection h with h1 h2; omega
        split at h
        · injection h with h1 h2; omega
        · exact escFallback_consumed_pos _ _ _ h
      · exact escFallback_consumed_pos _ _ _ h
    split at h
    · injection h with h1 h2; omega
    split at h
    · injection h with h1 h2; omega
    split at h
    · injection h with h1 h2; omega
    split at h
    · injection h with h1 h2; omega
    split at h
    · injection h with h1 h2; omega
    split at h
    · injection h with h1 h2; omega
    split at h
    · injection h with h1 h2; omega
    split at h
    · injection h with h1 h2
      have := decodeRune_consumed_pos (b :: rest) (by simp)
      omega
    · injection h with h1 h2; omega

/-- Embeds input.parseInput: parse raw bytes into key events.  The Go loop
walks a cursor through data; here each step consumes at least one byte of
the remaining suffix. -/
def parseInput (data : List Nat) : List Key :=
  match h : parseStep data with
  | StepRes.stop ks => ks
  | StepRes.emit ks c => ks ++ parseInput (data.drop c)
termination_by data.length
decreasing_by
  have hne : data ≠ [] := by
    intro he
    rw [he] at h
    simp [parseStep] at h
  have hc : 1 ≤ c := parseStep_consumed_pos data _ _ h
  have hlen : 0 < data.length := List.length_pos.mpr hne
  simp only [List.length_drop]
  omega

/-- Unfolding rule for parseInput when the step emits keys. -/
theorem parseInput_emit (data : List Nat) (ks : List Key) (c : Nat)
    (h : parseStep data = StepRes.emit ks c) :
    parseInput data = ks ++ parseInput (data.drop c) := by
  rw [parseInput]
  split
  · next h' => rw [h] at h'; cases h'
  · next ks' c' h' => rw [h] at h'; cases h'; rfl

/-- Unfolding rule for parseInput when the step stops the loop. -/
theorem parseInput_stop (data : List Nat) (ks : List Key)
    (h : parseStep data = StepRes.stop ks) : parseInput data = ks := by
  rw [parseInput]
  split
  · next h' => rw [h] at h'; cases h'; rfl
  · next ks' c' h' => rw [h] at h'; cases h'

theorem parseInput_nil : parseInput [] = [] := parseInput_stop [] [] rfl

/-! ## Input parser: chunked reads (input.ReadKeys parser goroutine)

The parser goroutine of input.ReadKeys consumes chunks and keeps one piece
of state: the paste buffer (`some buf` while inside a bracketed paste).
One branch of the loop is real-time dependent — a chunk ending in a lone
ESC byte makes the parser wait up to 50 ms for a follow-up chunk — and is
represented by `none` ("behavior depends on timing"); the claims below
only concern chunks that avoid that branch. -/

/-- One iteration of the input.ReadKeys parser-goroutine loop on a received
chunk `data` (Go guarantees chunks are nonempty): returns the keys sent
and the new paste buffer, or `none` for the timing-dependent
trailing-lone-ESC branch. -/
def processChunk (pasteBuf : Option (List Nat)) (data : List Nat) :
    Option (List Key × Option (List Nat)) :=
  match pasteBuf with
  | some buf =>
    let buf' := buf ++ data
    match indexBytes buf' pasteEnd with
    | none => some ([], some buf')
    | some e =>
      some (⟨KeyType.Paste, 0, buf'.take e⟩ :: parseInput (buf'.drop (e + pasteEnd.length)),
        none)
  | none =>
    if data.getLast? = some 0x1b then none
    else
      match indexBytes data pasteStart with
      | some pasteIdx =>
        let pre := parseInput (data.take pasteIdx)
        let after := data.drop (pasteIdx + pasteStart.length)
        (match indexBytes after pasteEnd with
         | some _ => some (pre ++ parseInput (data.drop pasteIdx), none)
         | none => some (pre, some after))
      | none => some (parseInput data, none)

/-- Feed a sequence of read chunks through the parser goroutine, starting
from paste-buffer state `st`; `none` if any chunk hits the
timing-dependent branch. -/
def processChunks (st : Option (List Nat)) : List (List Nat) → Option (List Key)
  | [] => some []
  | d :: ds =>
    match processChunk st d with
    | none => none
    | some (ks, st') => (processChunks st' ds).map (fun tail => ks ++ tail)

/-! ## Node model (node.go) -/

/-- Embeds node.NodeType. -/
inductive NodeType where
  | TextNode | BoxNode | RowNode | ColumnNode | ListNode | PaneNode | SpacerNode
  deriving DecidableEq, Repr

/-- Embeds node.Props (text as a rune list; colors/border/style carried but
irrelevant to layout). Defaults are Go zero values. -/
structure Props where
  text : List Char := []
  width : Int := 0
  height : Int := 0
  flexWeight : Int := 0
  border : Nat := 0
  focusable : Bool := false
  key : List Char := []
  fg : Nat := 0
  bg : Nat := 0
  style : Nat := 0
  scrollOffset : Int := 0
  scrollToBottom : Bool := false
  deriving Repr

/-- Embeds node.Node: a virtual UI element. -/
inductive Node where
  | mk (type : NodeType) (props : Props) (children : List Node)

def Node.type : Node → NodeType
  | Node.mk t _ _ => t

def Node.props : Node → Props
  | Node.mk _ p _ => p

def Node.children : Node → List Node
  | Node.mk _ _ cs => cs

/-- node.Text builder. -/
def textN (s : List Char) : Node := Node.mk NodeType.TextNode { text := s } []

/-- node.Row builder. -/
def rowN (cs : List Node) : Node := Node.mk NodeType.RowNode {} cs

/-- node.Column builder. -/
def columnN (cs : List Node) : Node := Node.mk NodeType.ColumnNode {} cs

/-- node.Box builder (border style irrelevant to layout). -/
def boxN (child : Node) : Node := Node.mk NodeType.BoxNode {} [child]

/-- node.Spacer builder: zero-content flex-1 filler. -/
def spacerN : Node := Node.mk NodeType.SpacerNode { flexWeight := 1 } []

/-- node.Node.WithFlex. -/
def Node.withFlex : Node → Int → Node
  | Node.mk t p cs, w => Node.mk t { p with flexWeight := w } cs

/-- node.Node.WithSize. -/
def Node.withSize : Node → Int → Int → Node
  | Node.mk t p cs, w, h => Node.mk t { p with width := w, height := h } cs

/-- node.Node.WithScrollOffset. -/
def Node.withScrollOffset : Node → Int → Node
  | Node.mk t p cs, so => Node.mk t { p with scrollOffset := so } cs

/-! ## Text wrapping (layout.wrapText) -/

/-- Go unicode.IsSpace (the White_Space property), on which strings.Fields
splits. -/
def goIsSpace (c : Char) : Bool :=
  decide (c.toNat = 0x09 ∨ c.toNat = 0x0a ∨ c.toNat = 0x0b ∨ c.toNat = 0x0c ∨
    c.toNat = 0x0d ∨ c.toNat = 0x20 ∨ c.toNat = 0x85 ∨ c.toNat = 0xa0 ∨
    c.toNat = 0x1680 ∨ (0x2000 ≤ c.toNat ∧ c.toNat ≤ 0x200a) ∨
    c.toNat = 0x2028 ∨ c.toNat = 0x2029 ∨ c.toNat = 0x202f ∨ c.toNat = 0x205f ∨
    c.toNat = 0x3000)

/-- Embeds strings.Split(s, newline): paragraphs of the input. -/
def splitOnNl : List Char → List (List Char)
  | [] => [[]]
  | c :: cs =>
    if c = '\n' then [] :: splitOnNl cs
    else
      match splitOnNl cs with
      | [] => [[c]]
      | p :: ps => (c :: p) :: ps

/-- Embeds strings.Fields: maximal runs of non-whitespace, via an
accumulator for the current word (in reverse). -/
def fieldsAux : List Char → List Char → List (List Char)
  | [], acc => if acc = [] then [] else [acc.reverse]
  | c :: cs, acc =>
    if goIsSpace c then
      if acc = [] then fieldsAux cs [] else acc.reverse :: fieldsAux cs []
    else fieldsAux cs (c :: acc)

/-- strings.Fields. -/
def goFields (s : List Char) : List (List Char) := fieldsAux s []

/-- The cutset of wrapText's TrimLeft: space and tab. -/
def isSpaceTab (c : Char) : Bool := c = ' ' || c = '\t'

/-- strings.TrimLeft(paragraph, space-tab): the paragraph body. -/
def trimmedOf (p : List Char) : List Char := p.dropWhile isSpaceTab

/-- paragraph[:len(paragraph)-len(trimmed)]: the preserved leading
whitespace (equals the maximal space-tab run the TrimLeft removed). -/
def leadingOf (p : List Char) : List Char := p.takeWhile isSpaceTab

/-- The word-packing loop of layout.wrapText (lines 307-317): given the
current line and its tracked rune length, pack the remaining words
greedily; on a misfit, close the line and start a new one with the
preserved indent plus the word. -/
def wrapLoop (maxWidth : Nat) (leading : List Char) :
    List Char → Nat → List (List Char) → List (List Char)
  | line, _, [] => [line]
  | line, lineLen, w :: ws =>
    if lineLen + 1 + w.length ≤ maxWidth then
      wrapLoop maxWidth leading (line ++ ' ' :: w) (lineLen + 1 + w.length) ws
    else
      line :: wrapLoop maxWidth leading (leading ++ w) (leading.length + w.length) ws

/-- The per-paragraph body of layout.wrapText (lines 292-319). -/
def wrapPara (maxWidth : Nat) (paragraph : List Char) : List (List Char) :=
  let trimmed := trimmedOf paragraph
  let leading := leadingOf paragraph
  if trimmed = [] then [leading]
  else
    match goFields trimmed with
    | [] => [leading]
    | w :: ws => wrapLoop maxWidth leading (leading ++ w) (leading ++ w).length ws

/-- Embeds layout.wrapText: wrap text to fit maxWidth columns. -/
def wrapText (s : List Char) (maxWidth : Int) : List (List Char) :=
  if maxWidth ≤ 0 then []
  else if s = [] then [[]]
  else (splitOnNl s).flatMap (wrapPara maxWidth.toNat)

/-! ## Layout engine (layout.go) -/

/-- Embeds layout.Rect: a positioned rectangle in terminal coordinates. -/
structure Rect where
  x : Int
  y : Int
  w : Int
  h : Int
  deriving DecidableEq, Repr

/-- Embeds layout.LayoutNode: a positioned node with resolved layout. -/
inductive LayoutNode where
  | mk (node : Node) (rect : Rect) (children : List LayoutNode)

def LayoutNode.node : LayoutNode → Node
  | LayoutNode.mk n _ _ => n

def LayoutNode.rect : LayoutNode → Rect
  | LayoutNode.mk _ r _ => r

def LayoutNode.children : LayoutNode → List LayoutNode
  | LayoutNode.mk _ _ cs => cs

/-- layout.flexWeight. -/
def flexWeight (n : Node) : Int := n.props.flexWeight

mutual

/-- Embeds layout.measureWidth: intrinsic width of a non-flex node. -/
def measureWidth : Node → Rect → Int
  | Node.mk t p cs, avail =>
    if 0 < p.width then p.width
    else
      match t with
      | NodeType.TextNode => (p.text.length : Int)
      | NodeType.BoxNode =>
        (match cs with
         | c :: _ => measureWidth c avail + 2
         | [] => 2)
      | NodeType.RowNode => measureWidthSum cs avail
      | _ => avail.w

/-- Accumulation loop of the Row case of layout.measureWidth. -/
def measureWidthSum : List Node → Rect → Int
  | [], _ => 0
  | c :: cs, avail => measureWidth c avail + measureWidthSum cs avail

end

mutual

/-- Embeds layout.measureHeight: intrinsic height of a non-flex node. -/
def measureHeight : Node → Rect → Int
  | Node.mk t p cs, avail =>
    if 0 < p.height then p.height
    else
      match t with
      | NodeType.TextNode => ((wrapText p.text avail.w).length : Int)
      | NodeType.BoxNode =>
        (match cs with
         | c :: _ =>
           let innerW := avail.w - 2
           measureHeight c ⟨avail.x, avail.y, if innerW < 0 then 0 else innerW, avail.h⟩ + 2
         | [] => 2)
      | NodeType.ColumnNode => measureHeightSum cs avail
      | NodeType.ListNode => measureHeightSum cs avail
      | NodeType.PaneNode => measureHeightSum cs avail
      | NodeType.RowNode => measureHeightMax cs avail 1
      | _ => 1

/-- Accumulation loop of the Column/List/Pane case of layout.measureHeight. -/
def measureHeightSum : List Node → Rect → Int
  | [], _ => 0
  | c :: cs, avail => measureHeight c avail + measureHeightSum cs avail

/-- Max-accumulation loop of the Row case of layout.measureHeight
(accumulator starts at 1). -/
def measureHeightMax : List Node → Rect → Int → Int
  | [], _, hAcc => hAcc
  | c :: cs, avail, hAcc =>
    let ch := measureHeight c avail
    measureHeightMax cs avail (if hAcc < ch then ch else hAcc)

end

/-- Embeds layout.shiftY: shift a layout node and all descendants by dy. -/
def shiftY (dy : Int) : LayoutNode → LayoutNode
  | LayoutNode.mk n r cs =>
    LayoutNode.mk n ⟨r.x, r.y + dy, r.w, r.h⟩ (cs.attach.map (fun c => shiftY dy c.1))
termination_by ln => sizeOf ln
decreasing_by
  have := List.sizeOf_lt_of_mem c.2
  simp only [LayoutNode.mk.sizeOf_spec]
  omega

/-- First measuring pass of layout.layoutRow (lines 74-83), accumulating
(totalFixed, totalFlex). -/
def rowTotalsAux : List Node → Rect → Int → Int → Int × Int
  | [], _, fixed, fl => (fixed, fl)
  | c :: cs, avail, fixed, fl =>
    if 0 < flexWeight c then rowTotalsAux cs avail fixed (fl + flexWeight c)
    else rowTotalsAux cs avail (fixed + measureWidth c avail) fl

/-- First measuring pass of layout.layoutColumn (lines 123-132). -/
def colTotalsAux : List Node → Rect → Int → Int → Int × Int
  | [], _, fixed, fl => (fixed, fl)
  | c :: cs, avail, fixed, fl =>
    if 0 < flexWeight c then colTotalsAux cs avail fixed (fl + flexWeight c)
    else colTotalsAux cs avail (fixed + measureHeight c avail) fl

/-- Embeds layout.layoutText: wrap the text, height = line count clamped to
avail.h, width = full avail.w. -/
def layoutText (n : Node) (avail : Rect) : LayoutNode :=
  let lines := wrapText n.props.text avail.w
  let h0 : Int := lines.length
  let h := if avail.h < h0 then avail.h else h0
  LayoutNode.mk n ⟨avail.x, avail.y, avail.w, h⟩ []

mutual

/-- Embeds layout.layout: dispatch by node kind, then apply explicit size
constraints (width/height shrink only). -/
def layout (n : Node) (avail : Rect) : LayoutNode :=
  match layoutDispatch n avail with
  | LayoutNode.mk m r cs =>
    let r1 := if 0 < n.props.width ∧ n.props.width < r.w then
        Rect.mk r.x r.y n.props.width r.h else r
    let r2 := if 0 < n.props.height ∧ n.props.height < r1.h then
        Rect.mk r1.x r1.y r1.w n.props.height else r1
    LayoutNode.mk m r2 cs
termination_by (sizeOf n, 2)

/-- The dispatch switch of layout.layout (lines 30-41). -/
def layoutDispatch (n : Node) (avail : Rect) : LayoutNode :=
  match n.type with
  | NodeType.TextNode => layoutText n avail
  | NodeType.RowNode => layoutRow n avail
  | NodeType.ColumnNode => layoutColumn n avail
  | NodeType.ListNode => layoutColumn n avail
  | NodeType.PaneNode => layoutColumn n avail
  | NodeType.BoxNode => layoutBox n avail
  | NodeType.SpacerNode => LayoutNode.mk n avail []
termination_by (sizeOf n, 1)

/-- Embeds layout.layoutRow. -/
def layoutRow (n : Node) (avail : Rect) : LayoutNode :=
  match n with
  | Node.mk _ _ [] => LayoutNode.mk n avail []
  | Node.mk _ _ (c :: cs) =>
    let t := rowTotalsAux (c :: cs) avail 0 0
    let remaining0 := avail.w - t.1
    let remaining := if remaining0 < 0 then 0 else remaining0
    LayoutNode.mk n avail (layoutRowChildren avail remaining t.2 avail.x (c :: cs))
termination_by (sizeOf n, 0)

/-- Second (position-assigning) pass of layout.layoutRow (lines 91-109),
walking the running x coordinate. -/
def layoutRowChildren (avail : Rect) (remaining totalFlex x : Int) :
    List Node → List LayoutNode
  | [] => []
  | c :: cs =>
    let fw := flexWeight c
    let childW0 := if 0 < fw ∧ 0 < totalFlex then Int.tdiv (remaining * fw) totalFlex
                   else measureWidth c avail
    let childW1 := if avail.w - (x - avail.x) < childW0 then avail.w - (x - avail.x) else childW0
    let childW := if childW1 < 0 then 0 else childW1
    layout c ⟨x, avail.y, childW, avail.h⟩ ::
      layoutRowChildren avail remaining totalFlex (x + childW) cs
termination_by cs => (sizeOf cs, 3)

/-- Embeds layout.layoutColumn (also used for List and Pane). -/
def layoutColumn (n : Node) (avail : Rect) : LayoutNode :=
  match n with
  | Node.mk _ _ [] => LayoutNode.mk n avail []
  | Node.mk _ p (c :: cs) =>
    let scrollable := 0 < p.scrollOffset ∨ p.scrollToBottom
    let t := colTotalsAux (c :: cs) avail 0 0
    let remaining0 := avail.h - t.1
    let remaining := if remaining0 < 0 then 0 else remaining0
    let res := layoutColChildren avail remaining t.2 scrollable avail.y (c :: cs)
    let yEnd := res.2
    let so :=
      if p.scrollToBottom then
        let totalContentH := yEnd - avail.y
        if avail.h < totalContentH then
          let so0 := (totalContentH - avail.h) - p.scrollOffset
          if so0 < 0 then 0 else so0
        else 0
      else p.scrollOffset
    let children := if 0 < so then res.1.map (shiftY (-so)) else res.1
    LayoutNode.mk n avail children
termination_by (sizeOf n, 0)

/-- Second pass of layout.layoutColumn (lines 140-160), walking the running
y coordinate; returns the children and the final y. -/
def layoutColChildren (avail : Rect) (remaining totalFlex : Int) (scrollable : Bool) (y : Int) :
    List Node → List LayoutNode × Int
  | [] => ([], y)
  | c :: cs =>
    let fw := flexWeight c
    let childH0 := if 0 < fw ∧ 0 < totalFlex then Int.tdiv (remaining * fw) totalFlex
                   else measureHeight c avail
    let childH :=
      if scrollable then childH0
      else
        let h1 := if avail.h - (y - avail.y) < childH0 then avail.h - (y - avail.y) else childH0
        if h1 < 0 then 0 else h1
    let rest := layoutColChildren avail remaining totalFlex scrollable (y + childH) cs
    (layout c ⟨avail.x, y, avail.w, childH⟩ :: rest.1, rest.2)
termination_by cs => (sizeOf cs, 3)

/-- Embeds layout.layoutBox: border steals one cell per side; the single
inner child is laid out in the clamped inner rect. -/
def layoutBox (n : Node) (avail : Rect) : LayoutNode :=
  match n with
  | Node.mk _ _ [] => LayoutNode.mk n avail []
  | Node.mk _ _ (c :: _) =>
    let innerW := avail.w - 2
    let innerH := avail.h - 2
    let inner : Rect := ⟨avail.x + 1, avail.y + 1,
      if innerW < 0 then 0 else innerW, if innerH < 0 then 0 else innerH⟩
    LayoutNode.mk n avail [layout c inner]
termination_by (sizeOf n, 0)

end

/-- Embeds layout.Layout: positions for the node tree within the terminal. -/
def Layout (root : Node) (termW termH : Int) : LayoutNode :=
  layout root ⟨0, 0, termW, termH⟩

/-! ## ANSI control sequences (ansi.go) and App.Run terminal setup (app.go) -/

/-- ansi.EnterAltScreen payload. -/
def enterAltScreenSeq : String := "\x1b[?1049h"

/-- ansi.LeaveAltScreen payload. -/
def leaveAltScreenSeq : String := "\x1b[?1049l"

/-- ansi.HideCursor payload. -/
def hideCursorSeq : String := "\x1b[?25l"

/-- ansi.ShowCursor payload. -/
def showCursorSeq : String := "\x1b[?25h"

/-- ansi.ClearScreen payload. -/
def clearScreenSeq : String := "\x1b[2J"

/-- ansi.EnableFocusReporting payload. -/
def enableFocusReportingSeq : String := "\x1b[?1004h"

/-- ansi.DisableFocusReporting payload. -/
def disableFocusReportingSeq : String := "\x1b[?1004l"

/-- ansi.EnableMouseReporting payload (basic + SGR mode). -/
def enableMouseReportingSeq : String := "\x1b[?1000h\x1b[?1006h"

/-- ansi.DisableMouseReporting payload. -/
def disableMouseReportingSeq : String := "\x1b[?1006l\x1b[?1000l"

/-- ansi.EnableBracketedPaste payload. -/
def enableBracketedPasteSeq : String := "\x1b[?2004h"

/-- ansi.DisableBracketedPaste payload. -/
def disableBracketedPasteSeq : String := "\x1b[?2004l"

/-- The writes App.Run makes to the output at startup (app.go lines
103-107), in source order. -/
def runStartupWrites : List String :=
  [enterAltScreenSeq, hideCursorSeq, enableFocusReportingSeq, enableMouseReportingSeq,
    clearScreenSeq]

/-- The writes App.Run's deferred teardown makes (app.go lines 109-114),
in source order; the defer runs on every exit path of Run. -/
def runTeardownWrites : List String :=
  [disableMouseReportingSeq, disableFocusReportingSeq, showCursorSeq, leaveAltScreenSeq]

/-- Does `needle` occur contiguously in `hay`?  (Rune-level substring
test, used to ask whether a control sequence is ever emitted.) -/
def containsSub (hay needle : List Char) : Bool :=
  (List.range (hay.length + 1)).any (fun i => needle.isPrefixOf (hay.drop i))

/-! ## Helper lemmas -/

theorem drop_len_append (l₁ l₂ : List Nat) (k : Nat) :
    (l₁ ++ l₂).drop (l₁.length + k) = l₂.drop k := by
  induction l₁ with
  | nil => simp
  | cons a t ih => simpa [Nat.succ_add] using ih

theorem skipCSIAux_spec (pre : List Nat) (fb : Nat) (post : List Nat)
    (hpre : ∀ x ∈ pre, ¬(0x40 ≤ x ∧ x ≤ 0x7e)) (hfb : 0x40 ≤ fb ∧ fb ≤ 0x7e) :
    ∀ j, skipCSIAux (pre ++ fb :: post) j = j + pre.length + 1 := by
  induction pre with
  | nil =>
    intro j
    simp [skipCSIAux, hfb]
  | cons a t ih =>
    intro j
    have ha : ¬(0x40 ≤ a ∧ a ≤ 0x7e) := hpre a (by simp)
    have ht : ∀ x ∈ t, ¬(0x40 ≤ x ∧ x ≤ 0x7e) := fun x hx => hpre x (by simp [hx])
    simp only [List.cons_append, skipCSIAux, if_neg ha, List.append_eq]
    rw [ih ht (j + 1)]
    simp only [List.length_cons]
    omega

theorem startsWith_self_append (p r : List Nat) : startsWith p (p ++ r) = true := by
  induction p with
  | nil => simp [startsWith]
  | cons a t ih => simpa [startsWith] using ih

/-- parseStep on a byte ≥ 0x80: always the UTF-8 rune branch. -/
theorem parseStep_rune (b : Nat) (rest : List Nat) (hb : 0x80 ≤ b) :
    parseStep (b :: rest) =
      StepRes.emit [⟨KeyType.RuneKey, (decodeRune (b :: rest)).1, []⟩]
        (decodeRune (b :: rest)).2 := by
  have hpref : hasPrefixAt (b :: rest) 0 pasteStart = false := by
    simp only [hasPrefixAt, pasteStart, startsWith, List.drop_zero]
    have : ¬((0x1b:Nat) = b) := by omega
    simp [this]
  simp only [parseStep]
  rw [hpref]
  simp only [Bool.false_eq_true, if_false]
  rw [if_neg (by omega : ¬ b = 0x1b), if_neg (by omega : ¬ b = 0x0d),
    if_neg (by omega : ¬ b = 0x0a), if_neg (by omega : ¬ b = 0x09),
    if_neg (by omega : ¬ (b = 0x7f ∨ b = 0x08)), if_neg (by omega : ¬ b = 0x03),
    if_neg (by omega : ¬ b = 0x04), if_neg (by omega : ¬ b = 0x1a),
    if_pos (by omega : 0x20 ≤ b)]

/-- parseStep on an unrecognized CSI with a final byte: skip, emit nothing. -/
theorem parseStep_unknown_csi (csi : List Nat)
    (hnopaste : startsWith [0x32, 0x30, 0x30, 0x7e] csi = false)
    (hcsi : (parseCSI csi).2 = 0) (hskip : 0 < skipCSI csi) :
    parseStep (0x1b :: 0x5b :: csi) = StepRes.emit [] (2 + skipCSI csi) := by
  have hpref : hasPrefixAt (0x1b :: 0x5b :: csi) 0 pasteStart = false := by
    simp [hasPrefixAt, pasteStart, startsWith, hnopaste]
  simp only [parseStep]
  rw [hpref]
  simp only [Bool.false_eq_true, if_false, if_pos rfl]
  rw [hcsi]
  simp only [lt_self_iff_false, if_false]
  rw [if_pos hskip]
  simp

theorem startsWith_append_of (p : List Nat) :
    ∀ l m, startsWith p l = true → startsWith p (l ++ m) = true := by
  induction p with
  | nil => intro l m _; simp [startsWith]
  | cons a ps ih =>
    intro l m h
    cases l with
    | nil => simp [startsWith] at h
    | cons b bs =>
      simp only [List.cons_append, startsWith, Bool.and_eq_true] at h ⊢
      exact ⟨h.1, ih bs m h.2⟩

/-- No occurrence in a prefix when there is none in the whole. -/
theorem indexBytes_none_of_append (needle : List Nat) (hnd : needle ≠ []) :
    ∀ a b, indexBytes (a ++ b) needle = none → indexBytes a needle = none := by
  intro a
  induction a with
  | nil =>
    intro b _
    simp [indexBytes, hnd]
  | cons c cs ih =>
    intro b h
    rw [List.cons_append, indexBytes] at h
    rw [indexBytes]
    split at h
    · cases h
    · next hsw =>
      have h2 : indexBytes (cs ++ b) needle = none := by
        rcases hidx : indexBytes (cs ++ b) needle with _ | v
        · rfl
        · rw [hidx] at h; simp at h
      rw [if_neg ?_]
      · rw [ih b h2]
        rfl
      · intro hc
        exact hsw (startsWith_append_of needle (c :: cs) b hc)

/-- The close marker cannot begin inside `inner` and overlap into the
appended marker: its byte 0x1B recurs nowhere else in it. -/
theorem startsWith_pasteEnd_overlap (inner rest : List Nat) (hne : inner ≠ [])
    (h : startsWith pasteEnd inner = false) :
    startsWith pasteEnd (inner ++ pasteEnd ++ rest) = false := by
  match inner, hne with
  | [a], _ => simp [pasteEnd, startsWith]
  | [a, b], _ => simp [pasteEnd, startsWith]
  | [a, b, c], _ => simp [pasteEnd, startsWith]
  | [a, b, c, d], _ => simp [pasteEnd, startsWith]
  | [a, b, c, d, e], _ => simp [pasteEnd, startsWith]
  | a :: b :: c :: d :: e :: f :: tl, _ =>
    simp only [pasteEnd, startsWith, List.cons_append] at h ⊢
    simpa using h

/-- First occurrence of the close marker in inner ++ close ++ rest is
exactly at inner.length when inner contains no occurrence. -/
theorem indexBytes_pasteEnd_boundary (inner rest : List Nat)
    (h : indexBytes inner pasteEnd = none) :
    indexBytes (inner ++ pasteEnd ++ rest) pasteEnd = some inner.length := by
  induction inner with
  | nil =>
    have hsw : startsWith pasteEnd (pasteEnd ++ rest) = true :=
      startsWith_self_append _ _
    simp only [List.nil_append, List.length_nil]
    rw [show pasteEnd ++ rest = 0x1b :: (0x5b :: 0x32 :: 0x30 :: 0x31 :: 0x7e :: rest) from rfl]
    rw [indexBytes]
    rw [show (0x1b :: (0x5b :: 0x32 :: 0x30 :: 0x31 :: 0x7e :: rest)) = pasteEnd ++ rest from rfl,
      if_pos hsw]
  | cons c cs ih =>
    rw [indexBytes] at h
    split at h
    · cases h
    · next hsw =>
      have h2 : indexBytes cs pasteEnd = none := by
        rcases hidx : indexBytes cs pasteEnd with _ | v
        · rfl
        · rw [hidx] at h; simp at h
      have h1 : startsWith pasteEnd (c :: cs) = false := by
        revert hsw
        cases startsWith pasteEnd (c :: cs) <;> simp
      have h3 := startsWith_pasteEnd_overlap (c :: cs) rest (by simp) h1
      rw [show (c :: cs) ++ pasteEnd ++ rest = c :: (cs ++ pasteEnd ++ rest) by simp] at h3 ⊢
      rw [indexBytes, if_neg (by rw [h3]; simp), ih h2]
      simp

/-- A complete bracketed paste at the front of a buffer parses to one
Paste event carrying the inner bytes, then the parse of the remainder. -/
theorem parseInput_paste (inner rest : List Nat)
    (h : indexBytes inner pasteEnd = none) :
    parseInput (pasteStart ++ inner ++ pasteEnd ++ rest) =
      ⟨KeyType.Paste, 0, inner⟩ :: parseInput rest := by
  have hidx : indexBytes (inner ++ pasteEnd ++ rest) pasteEnd = some inner.length :=
    indexBytes_pasteEnd_boundary inner rest h
  have hassoc : pasteStart ++ inner ++ pasteEnd ++ rest =
      0x1b :: 0x5b :: 0x32 :: 0x30 :: 0x30 :: 0x7e :: (inner ++ pasteEnd ++ rest) := by
    simp [pasteStart]
  have htake : (inner ++ pasteEnd ++ rest).take inner.length = inner := by
    rw [List.append_assoc, List.take_left]
  have hdrop : (inner ++ pasteEnd ++ rest).drop (inner.length + 6) = rest := by
    rw [List.append_assoc, drop_len_append]
    rfl
  have hstep : parseStep (pasteStart ++ inner ++ pasteEnd ++ rest) =
      StepRes.emit [⟨KeyType.Paste, 0, inner⟩]
        (pasteStart.length + inner.length + pasteEnd.length) := by
    rw [hassoc]
    simp only [parseStep]
    rw [if_pos ?hpref]
    case hpref =>
      simp only [hasPrefixAt, List.drop_zero, Bool.and_eq_true, decide_eq_true_eq]
      constructor
      · simp [pasteStart]
      · rw [← hassoc, show pasteStart ++ inner ++ pasteEnd ++ rest =
          pasteStart ++ (inner ++ pasteEnd ++ rest) by simp]
        exact startsWith_self_append _ _
    rw [show List.drop pasteStart.length
        (0x1b :: 0x5b :: 0x32 :: 0x30 :: 0x30 :: 0x7e :: (inner ++ pasteEnd ++ rest)) =
        inner ++ pasteEnd ++ rest from rfl]
    rw [hidx]
    show StepRes.emit [⟨KeyType.Paste, 0, (inner ++ pasteEnd ++ rest).take inner.length⟩]
        (pasteStart.length + inner.length + pasteEnd.length) = _
    rw [htake]
  rw [parseInput_emit _ _ _ hstep]
  have hc : pasteStart.length + inner.length + pasteEnd.length =
      pasteStart.length + (inner.length + 6) := by
    simp [pasteStart, pasteEnd]
    omega
  rw [hc, show pasteStart ++ inner ++ pasteEnd ++ rest =
      pasteStart ++ (inner ++ pasteEnd ++ rest) by simp,
    drop_len_append, hdrop]
  rfl

/-- processChunk with an active paste buffer, unfolded. -/
theorem processChunk_some_eq (buf data : List Nat) :
    processChunk (some buf) data =
      (match indexBytes (buf ++ data) pasteEnd with
       | none => some ([], some (buf ++ data))
       | some e =>
         some (⟨KeyType.Paste, 0, (buf ++ data).take e⟩ ::
           parseInput ((buf ++ data).drop (e + pasteEnd.length)), none)) := rfl

/-- processChunk with no active paste buffer, unfolded. -/
theorem processChunk_none_eq (data : List Nat) :
    processChunk none data =
      (if data.getLast? = some 0x1b then none
       else
        match indexBytes data pasteStart with
        | some pasteIdx =>
          (match indexBytes (data.drop (pasteIdx + pasteStart.length)) pasteEnd with
           | some _ =>
             some (parseInput (data.take pasteIdx) ++ parseInput (data.drop pasteIdx), none)
           | none =>
             some (parseInput (data.take pasteIdx),
               some (data.drop (pasteIdx + pasteStart.length))))
        | none => some (parseInput data, none)) := rfl

/-- A chunk that opens a paste and does not close it: everything after the
open marker becomes the paste buffer, no key is emitted. -/
theorem processChunk_open (a : List Nat)
    (hlast : ∀ x, a.getLast? = some x → x ≠ 0x1b)
    (hnoEnd : indexBytes a pasteEnd = none) :
    processChunk none (pasteStart ++ a) = some ([], some a) := by
  have h1 : ¬((pasteStart ++ a).getLast? = some 0x1b) := by
    rcases ha : a.getLast? with _ | x
    · have : a = [] := List.getLast?_eq_none_iff.mp ha
      subst this
      simp [pasteStart]
    · have hne : a ≠ [] := by
        intro he
        rw [he] at ha
        simp at ha
      rw [List.getLast?_append_of_ne_nil _ hne, ha]
      have := hlast x ha
      simp [this]
  have h2 : indexBytes (pasteStart ++ a) pasteStart = some 0 := by
    rw [show pasteStart ++ a = 0x1b :: (0x5b :: 0x32 :: 0x30 :: 0x30 :: 0x7e :: a) from rfl]
    rw [indexBytes]
    rw [show (0x1b :: (0x5b :: 0x32 :: 0x30 :: 0x30 :: 0x7e :: a)) = pasteStart ++ a from rfl,
      if_pos (startsWith_self_append _ _)]
  rw [processChunk_none_eq, if_neg h1, h2]
  show (match indexBytes ((pasteStart ++ a).drop (0 + pasteStart.length)) pasteEnd with
       | some _ =>
         some (parseInput ((pasteStart ++ a).take 0) ++ parseInput ((pasteStart ++ a).drop 0),
           none)
       | none =>
         some (parseInput ((pasteStart ++ a).take 0),
           some ((pasteStart ++ a).drop (0 + pasteStart.length)))) = _
  rw [show (pasteStart ++ a).drop (0 + pasteStart.length) = a from rfl, hnoEnd]
  show some (parseInput [], some a) = _
  rw [parseInput_nil]

/-- A chunk that closes a buffered paste: one Paste event with the full
buffered text, then the parse of the bytes after the close marker. -/
theorem processChunk_close (buf b rest : List Nat)
    (hnoEnd : indexBytes (buf ++ b) pasteEnd = none) :
    processChunk (some buf) (b ++ pasteEnd ++ rest) =
      some (⟨KeyType.Paste, 0, buf ++ b⟩ :: parseInput rest, none) := by
  have hassoc : buf ++ (b ++ pasteEnd ++ rest) = (buf ++ b) ++ pasteEnd ++ rest := by simp
  have htake : ((buf ++ b) ++ pasteEnd ++ rest).take (buf ++ b).length = buf ++ b := by
    rw [List.append_assoc, List.take_left]
  have hdrop : ((buf ++ b) ++ pasteEnd ++ rest).drop ((buf ++ b).length + pasteEnd.length) =
      rest := by
    rw [List.append_assoc, drop_len_append]
    rfl
  rw [processChunk_some_eq, hassoc, indexBytes_pasteEnd_boundary _ _ hnoEnd]
  show some (⟨KeyType.Paste, 0, ((buf ++ b) ++ pasteEnd ++ rest).take (buf ++ b).length⟩ ::
      parseInput (((buf ++ b) ++ pasteEnd ++ rest).drop ((buf ++ b).length + pasteEnd.length)),
      none) = _
  rw [htake, hdrop]

/-- Single-space join of a group of words. -/
def joinSp : List (List Char) → List Char
  | [] => []
  | wd :: ws => wd ++ ws.flatMap (fun v => ' ' :: v)

/-- Lines produced by the wrap loop: each either fits in maxWidth, or is
the loop's starting line, or is the indent followed by one of the words. -/
theorem wrapLoop_mem (mw : Nat) (leading : List Char) :
    ∀ ws line len, len = line.length →
      ∀ l ∈ wrapLoop mw leading line len ws,
        l.length ≤ mw ∨ l = line ∨ ∃ wd ∈ ws, l = leading ++ wd := by
  intro ws
  induction ws with
  | nil =>
    intro line len _ l hl
    simp only [wrapLoop, List.mem_singleton] at hl
    subst hl
    exact Or.inr (Or.inl rfl)
  | cons wd ws ih =>
    intro line len hlen l hl
    simp only [wrapLoop] at hl
    by_cases hfit : len + 1 + wd.length ≤ mw
    · rw [if_pos hfit] at hl
      rcases ih (line ++ ' ' :: wd) _ (by simp [hlen]; omega) l hl with h | h | h
      · exact Or.inl h
      · subst h
        left
        simp only [List.length_append, List.length_cons]
        omega
      · rcases h with ⟨w', hw', rfl⟩
        exact Or.inr (Or.inr ⟨w', by simp [hw'], rfl⟩)
    · rw [if_neg hfit] at hl
      rcases List.mem_cons.mp hl with rfl | hl'
      · exact Or.inr (Or.inl rfl)
      · rcases ih (leading ++ wd) _ (by simp) l hl' with h | h | h
        · exact Or.inl h
        · exact Or.inr (Or.inr ⟨wd, by simp, h⟩)
        · rcases h with ⟨w', hw', rfl⟩
          exact Or.inr (Or.inr ⟨w', by simp [hw'], rfl⟩)

/-- Lines of a wrapped paragraph: each fits, or is the preserved indent,
or the indent plus one word of the paragraph. -/
theorem wrapPara_mem (mw : Nat) (p l : List Char) (hl : l ∈ wrapPara mw p) :
    l.length ≤ mw ∨ l = leadingOf p ∨
      ∃ wd ∈ goFields (trimmedOf p), l = leadingOf p ++ wd := by
  simp only [wrapPara] at hl
  by_cases ht : trimmedOf p = []
  · rw [if_pos ht] at hl
    simp at hl
    exact Or.inr (Or.inl hl)
  · rw [if_neg ht] at hl
    rcases hf : goFields (trimmedOf p) with _ | ⟨w0, ws⟩
    · rw [hf] at hl
      simp at hl
      exact Or.inr (Or.inl hl)
    · rw [hf] at hl
      rcases wrapLoop_mem mw (leadingOf p) ws _ _ rfl l hl with h | h | h
      · exact Or.inl h
      · exact Or.inr (Or.inr ⟨w0, by simp [hf], h⟩)
      · rcases h with ⟨w', hw', rfl⟩
        exact Or.inr (Or.inr ⟨w', by simp [hf, hw'], rfl⟩)

/-- Structure of the wrap loop's output: the words are partitioned into
consecutive groups; the first group extends the starting line, every later
group becomes the indent plus the group joined by single spaces. -/
theorem wrapLoop_structure (mw : Nat) (leading : List Char) :
    ∀ ws line len, ∃ (g : List (List Char)) (gs : List (List (List Char))),
      ws = g ++ gs.flatten ∧ (∀ gr ∈ gs, gr ≠ []) ∧
      wrapLoop mw leading line len ws =
        (line ++ g.flatMap (fun wd => ' ' :: wd)) :: gs.map (fun gr => leading ++ joinSp gr) := by
  intro ws
  induction ws with
  | nil =>
    intro line len
    exact ⟨[], [], by simp, by simp, by simp [wrapLoop]⟩
  | cons wd ws ih =>
    intro line len
    by_cases hfit : len + 1 + wd.length ≤ mw
    · rcases ih (line ++ ' ' :: wd) (len + 1 + wd.length) with ⟨g, gs, hws, hne, heq⟩
      refine ⟨wd :: g, gs, by simp [hws], hne, ?_⟩
      simp only [wrapLoop, if_pos hfit, heq]
      simp
    · rcases ih (leading ++ wd) (leading.length + wd.length) with ⟨g, gs, hws, hne, heq⟩
      refine ⟨[], (wd :: g) :: gs, by simp [hws], ?_, ?_⟩
      · intro gr hgr
        rcases List.mem_cons.mp hgr with rfl | h
        · simp
        · exact hne _ h
      · simp only [wrapLoop, if_neg hfit, heq]
        simp [joinSp]

/-- Structure of a wrapped paragraph with at least one word. -/
theorem wrapPara_structure (mw : Nat) (p : List Char)
    (hf : goFields (trimmedOf p) ≠ []) :
    ∃ gss : List (List (List Char)),
      gss.flatten = goFields (trimmedOf p) ∧ (∀ gr ∈ gss, gr ≠ []) ∧
      wrapPara mw p = gss.map (fun gr => leadingOf p ++ joinSp gr) := by
  rcases hfe : goFields (trimmedOf p) with _ | ⟨w0, ws⟩
  · exact absurd hfe hf
  have ht : trimmedOf p ≠ [] := by
    intro h
    rw [h] at hfe
    simp [goFields, fieldsAux] at hfe
  rcases wrapLoop_structure mw (leadingOf p) ws (leadingOf p ++ w0) (leadingOf p ++ w0).length
    with ⟨g, gs, hws, hne, heq⟩
  refine ⟨(w0 :: g) :: gs, by simp [hws, hfe], ?_, ?_⟩
  · intro gr hgr
    rcases List.mem_cons.mp hgr with rfl | h
    · simp
    · exact hne _ h
  · simp only [wrapPara, if_neg ht, hfe, heq]
    simp [joinSp]

/-- A paragraph with no words wraps to exactly its indent line. -/
theorem wrapPara_no_words (mw : Nat) (p : List Char) (hf : goFields (trimmedOf p) = []) :
    wrapPara mw p = [leadingOf p] := by
  simp only [wrapPara, hf]
  split <;> rfl

/-- C1 (amended) property at a given input: every line either measures at
most w runes or consists of a paragraph's preserved indent followed by at
most one of that paragraph's words (so a word longer than w appears,
indent included, alone on its line); and the packing is greedy — with the
tracked length equal to the line's rune count, the next word is appended
iff line_len + 1 + word_len ≤ w, and on a misfit the new line starts with
the preserved indent plus that word. -/
def WrapConservative (s : List Char) (w : Int) : Prop :=
  (∀ l ∈ wrapText s w, (l.length : Int) ≤ w ∨
    ∃ p ∈ splitOnNl s, l = leadingOf p ∨
      ∃ wd ∈ goFields (trimmedOf p), l = leadingOf p ++ wd) ∧
  (∀ (leading line : List Char) (len : Nat) (wd : List Char) (ws : List (List Char)),
    len = line.length →
    wrapLoop w.toNat leading line len (wd :: ws) =
      (if line.length + 1 + wd.length ≤ w.toNat then
        wrapLoop w.toNat leading (line ++ ' ' :: wd) (line.length + 1 + wd.length) ws
      else line :: wrapLoop w.toNat leading (leading ++ wd) (leading.length + wd.length) ws))

/-- C9 property at a given input: wrapping flattens per-paragraph results;
within a paragraph the words (maximal whitespace-free runs) are kept
unchanged and in order, partitioned into consecutive groups, and each
output line is the preserved indent followed by its group joined by
single spaces — all interior whitespace runs collapse. -/
def WrapNormalized (s : List Char) (w : Int) : Prop :=
  wrapText s w = (splitOnNl s).flatMap (wrapPara w.toNat) ∧
  ∀ p ∈ splitOnNl s,
    (goFields (trimmedOf p) = [] → wrapPara w.toNat p = [leadingOf p]) ∧
    (goFields (trimmedOf p) ≠ [] →
      ∃ gss : List (List (List Char)),
        gss.flatten = goFields (trimmedOf p) ∧ (∀ gr ∈ gss, gr ≠ []) ∧
        wrapPara w.toNat p = gss.map (fun gr => leadingOf p ++ joinSp gr))

theorem shiftY_node (dy : Int) (ln : LayoutNode) : (shiftY dy ln).node = ln.node := by
  rcases ln with ⟨nn, r, cs⟩
  rw [shiftY]
  rfl

theorem layoutDispatch_node (n : Node) (avail : Rect) : (layoutDispatch n avail).node = n := by
  rcases n with ⟨t, p, cs⟩
  cases t <;> cases cs <;>
    simp only [layoutDispatch, Node.type, layoutText, layoutRow, layoutColumn, layoutBox,
      LayoutNode.node]

theorem layout_children_eq (n : Node) (avail : Rect) :
    (layout n avail).children = (layoutDispatch n avail).children := by
  rw [layout]
  rcases hd : layoutDispatch n avail with ⟨m, r, cs⟩
  rfl

theorem layout_node (n : Node) (avail : Rect) : (layout n avail).node = n := by
  rw [layout]
  rcases hd : layoutDispatch n avail with ⟨m, r, cs⟩
  have hdn := layoutDispatch_node n avail
  rw [hd] at hdn
  exact hdn

theorem layoutRowChildren_map_node (avail : Rect) (remaining totalFlex : Int) :
    ∀ cs x, (layoutRowChildren avail remaining totalFlex x cs).map LayoutNode.node = cs := by
  intro cs
  induction cs with
  | nil => intro x; rw [layoutRowChildren]; rfl
  | cons c cs ih =>
    intro x
    rw [layoutRowChildren]
    simp only [List.map_cons, layout_node]
    rw [ih]

theorem layoutColChildren_map_node (avail : Rect) (remaining totalFlex : Int)
    (scrollable : Bool) :
    ∀ cs y,
      (layoutColChildren avail remaining totalFlex scrollable y cs).1.map LayoutNode.node = cs := by
  intro cs
  induction cs with
  | nil => intro y; rw [layoutColChildren]; rfl
  | cons c cs ih =>
    intro y
    rw [layoutColChildren]
    simp only [List.map_cons, layout_node]
    rw [ih]

/-- Claim-side: sum of the intrinsic widths of a Row's non-flex children. -/
def sumIntrinsicW (avail : Rect) : List Node → Int
  | [] => 0
  | c :: cs => (if 0 < flexWeight c then 0 else measureWidth c avail) + sumIntrinsicW avail cs

/-- Claim-side: total flex weight of a Row's flex children. -/
def sumFlexW : List Node → Int
  | [] => 0
  | c :: cs => (if 0 < flexWeight c then flexWeight c else 0) + sumFlexW cs

/-- Modelled from the amended claim's words: the rects a Row allocates to
its children — x advances by the allocated widths; each width is the base
allocation (floor(remaining × weight / total_flex) for a flex child,
intrinsic measured width otherwise) clamped to the space remaining in the
row and to at least zero; each child gets the full row height. -/
def claimedRowRects (avail : Rect) (remaining totalFlex : Int) :
    List Node → Int → List Rect
  | [], _ => []
  | c :: cs, used =>
    let base := if 0 < flexWeight c then Int.tdiv (remaining * flexWeight c) totalFlex
                else measureWidth c avail
    let w' := max 0 (min base (avail.w - used))
    ⟨avail.x + used, avail.y, w', avail.h⟩ ::
      claimedRowRects avail remaining totalFlex cs (used + w')

theorem rowTotalsAux_eq (avail : Rect) :
    ∀ cs f0 fl0, rowTotalsAux cs avail f0 fl0 =
      (f0 + sumIntrinsicW avail cs, fl0 + sumFlexW cs) := by
  intro cs
  induction cs with
  | nil =>
    intro f0 fl0
    simp [rowTotalsAux, sumIntrinsicW, sumFlexW]
  | cons c cs ih =>
    intro f0 fl0
    rw [rowTotalsAux]
    split
    · next hc =>
      rw [ih]
      simp only [sumIntrinsicW, sumFlexW, if_pos hc, Prod.mk.injEq]
      constructor <;> omega
    · next hc =>
      rw [ih]
      simp only [sumIntrinsicW, sumFlexW, if_neg hc, Prod.mk.injEq]
      constructor <;> omega

theorem sumFlexW_nonneg : ∀ cs : List Node, 0 ≤ sumFlexW cs := by
  intro cs
  induction cs with
  | nil => simp [sumFlexW]
  | cons e es ihe =>
    rw [sumFlexW]
    split <;> omega

theorem sumFlexW_pos_of_mem : ∀ (cs : List Node) (c : Node), c ∈ cs →
    0 < flexWeight c → 0 < sumFlexW cs := by
  intro cs
  induction cs with
  | nil => intro c hc; cases hc
  | cons d ds ih =>
    intro c hc hf
    have hd : 0 ≤ sumFlexW ds := sumFlexW_nonneg ds
    rcases List.mem_cons.mp hc with rfl | hmem
    · rw [sumFlexW, if_pos hf]
      omega
    · have := ih c hmem hf
      rw [sumFlexW]
      split <;> omega

/-- The Row second pass computes exactly the claimed rects. -/
theorem layoutRowChildren_eq_claimed (avail : Rect) (remaining totalFlex : Int) :
    ∀ cs used, (∀ c ∈ cs, 0 < flexWeight c → 0 < totalFlex) →
      layoutRowChildren avail remaining totalFlex (avail.x + used) cs =
        List.zipWith layout cs (claimedRowRects avail remaining totalFlex cs used) := by
  intro cs
  induction cs with
  | nil =>
    intro used _
    rw [layoutRowChildren, claimedRowRects]
    rfl
  | cons c cs ih =>
    intro used hf
    rw [layoutRowChildren, claimedRowRects]
    have hbase : (if 0 < flexWeight c ∧ 0 < totalFlex then
        Int.tdiv (remaining * flexWeight c) totalFlex else measureWidth c avail) =
        (if 0 < flexWeight c then Int.tdiv (remaining * flexWeight c) totalFlex
         else measureWidth c avail) := by
      by_cases hc : 0 < flexWeight c
      · rw [if_pos ⟨hc, hf c (by simp) hc⟩, if_pos hc]
      · rw [if_neg (fun hand => hc hand.1), if_neg hc]
    rw [hbase]
    set base := if 0 < flexWeight c then Int.tdiv (remaining * flexWeight c) totalFlex
      else measureWidth c avail with hbase_def
    have hW : (if (if avail.w - (avail.x + used - avail.x) < base
          then avail.w - (avail.x + used - avail.x) else base) < 0 then 0
        else (if avail.w - (avail.x + used - avail.x) < base
          then avail.w - (avail.x + used - avail.x) else base)) =
        max 0 (min base (avail.w - used)) := by
      have hx : avail.x + used - avail.x = used := by omega
      rw [hx]
      split_ifs <;> omega
    rw [hW]
    rw [List.zipWith_cons_cons]
    refine congrArg _ ?_
    rw [show avail.x + used + max 0 (min base (avail.w - used)) =
        avail.x + (used + max 0 (min base (avail.w - used))) from by omega]
    exact ih (used + max 0 (min base (avail.w - used)))
      (fun c' hc' => hf c' (by simp [hc']))

/-- Structural induction over the nested Node tree. -/
def nodeStrongInd {P : Node → Prop}
    (step : ∀ t p cs, (∀ c ∈ cs, P c) → P (Node.mk t p cs)) : ∀ n, P n
  | Node.mk t p cs => step t p cs (fun c hc => nodeStrongInd step c)
termination_by n => sizeOf n
decreasing_by
  have := List.sizeOf_lt_of_mem hc
  simp only [Node.mk.sizeOf_spec]
  omega

/-- Structural induction over the nested LayoutNode tree. -/
def lnStrongInd {P : LayoutNode → Prop}
    (step : ∀ nn r cs, (∀ c ∈ cs, P c) → P (LayoutNode.mk nn r cs)) : ∀ ln, P ln
  | LayoutNode.mk nn r cs => step nn r cs (fun c hc => lnStrongInd step c)
termination_by ln => sizeOf ln
decreasing_by
  have := List.sizeOf_lt_of_mem hc
  simp only [LayoutNode.mk.sizeOf_spec]
  omega

/-- All rects of a layout tree, root first. -/
def rects : LayoutNode → List Rect
  | LayoutNode.mk _ r cs => r :: cs.attach.flatMap (fun c => rects c.1)
termination_by ln => sizeOf ln
decreasing_by
  have := List.sizeOf_lt_of_mem c.2
  simp only [LayoutNode.mk.sizeOf_spec]
  omega

theorem mem_rects (nn : Node) (r : Rect) (cs : List LayoutNode) (r' : Rect) :
    r' ∈ rects (LayoutNode.mk nn r cs) ↔ r' = r ∨ ∃ c ∈ cs, r' ∈ rects c := by
  rw [rects]
  simp only [List.mem_cons, List.mem_flatMap, List.mem_attach, true_and, Subtype.exists]
  constructor
  · rintro (rfl | ⟨c, hc, hrc⟩)
    · exact Or.inl rfl
    · exact Or.inr ⟨c, hc, hrc⟩
  · rintro (rfl | ⟨c, hc, hrc⟩)
    · exact Or.inl rfl
    · exact Or.inr ⟨c, hc, hrc⟩

theorem tdiv_nonneg' {a b : Int} (ha : 0 ≤ a) (hb : 0 ≤ b) : 0 ≤ Int.tdiv a b := by
  obtain ⟨m, rfl⟩ := Int.eq_ofNat_of_zero_le ha
  obtain ⟨n, rfl⟩ := Int.eq_ofNat_of_zero_le hb
  exact Int.ofNat_nonneg (m / n)

theorem measureHeightSum_nonneg (cs : List Node) (avail : Rect)
    (h : ∀ c ∈ cs, 0 ≤ measureHeight c avail) : 0 ≤ measureHeightSum cs avail := by
  induction cs with
  | nil => simp [measureHeightSum]
  | cons c cs ih =>
    rw [measureHeightSum]
    have h1 := h c (by simp)
    have h2 := ih (fun c' hc' => h c' (by simp [hc']))
    omega

theorem measureHeightMax_nonneg (cs : List Node) (avail : Rect) :
    ∀ acc : Int, 0 ≤ acc → 0 ≤ measureHeightMax cs avail acc := by
  induction cs with
  | nil => intro acc h; rw [measureHeightMax]; exact h
  | cons c cs ih =>
    intro acc h
    rw [measureHeightMax]
    apply ih
    split <;> omega

/-- measureHeight never goes negative. -/
theorem measureHeight_nonneg : ∀ n, ∀ avail : Rect, 0 ≤ measureHeight n avail := by
  refine nodeStrongInd (P := fun n => ∀ avail : Rect, 0 ≤ measureHeight n avail) ?_
  intro t p cs ih avail
  cases t with
  | TextNode =>
    show 0 ≤ if 0 < p.height then p.height else ((wrapText p.text avail.w).length : Int)
    split
    · omega
    · exact Int.natCast_nonneg _
  | BoxNode =>
    cases cs with
    | nil =>
      show 0 ≤ if 0 < p.height then p.height else 2
      split <;> omega
    | cons c cs =>
      have h1 := ih c (by simp)
        ⟨avail.x, avail.y, if avail.w - 2 < 0 then 0 else avail.w - 2, avail.h⟩
      show 0 ≤ if 0 < p.height then p.height else measureHeight c
        ⟨avail.x, avail.y, if avail.w - 2 < 0 then 0 else avail.w - 2, avail.h⟩ + 2
      split <;> omega
  | ColumnNode =>
    show 0 ≤ if 0 < p.height then p.height else measureHeightSum cs avail
    split
    · omega
    · exact measureHeightSum_nonneg cs avail (fun c hc => ih c hc avail)
  | ListNode =>
    show 0 ≤ if 0 < p.height then p.height else measureHeightSum cs avail
    split
    · omega
    · exact measureHeightSum_nonneg cs avail (fun c hc => ih c hc avail)
  | PaneNode =>
    show 0 ≤ if 0 < p.height then p.height else measureHeightSum cs avail
    split
    · omega
    · exact measureHeightSum_nonneg cs avail (fun c hc => ih c hc avail)
  | RowNode =>
    show 0 ≤ if 0 < p.height then p.height else measureHeightMax cs avail 1
    split
    · omega
    · exact measureHeightMax_nonneg cs avail 1 (by omega)
  | SpacerNode =>
    show 0 ≤ if 0 < p.height then p.height else 1
    split <;> omega

/-- shiftY changes only y coordinates: every rect of the shifted tree has
the width and height of a rect of the original. -/
theorem rects_shiftY (dy : Int) : ∀ ln, ∀ r' ∈ rects (shiftY dy ln),
    ∃ r0 ∈ rects ln, r'.w = r0.w ∧ r'.h = r0.h := by
  refine lnStrongInd (P := fun ln => ∀ r' ∈ rects (shiftY dy ln),
    ∃ r0 ∈ rects ln, r'.w = r0.w ∧ r'.h = r0.h) ?_
  intro nn r cs ih r' hr'
  rw [shiftY] at hr'
  rw [mem_rects] at hr'
  rcases hr' with rfl | ⟨c, hc, hrc⟩
  · exact ⟨r, by rw [mem_rects]; exact Or.inl rfl, rfl, rfl⟩
  · rcases List.mem_map.mp hc with ⟨⟨c0, hc0⟩, _, rfl⟩
    rcases ih c0 hc0 r' hrc with ⟨r0, hr0, h1, h2⟩
    exact ⟨r0, by rw [mem_rects]; exact Or.inr ⟨c0, hc0, hr0⟩, h1, h2⟩

theorem rowChildren_rects_nonneg (avail : Rect) (remaining totalFlex : Int)
    (hh : 0 ≤ avail.h) :
    ∀ cs x, (∀ c ∈ cs, ∀ a : Rect, 0 ≤ a.w → 0 ≤ a.h →
        ∀ r ∈ rects (layout c a), 0 ≤ r.w ∧ 0 ≤ r.h) →
      ∀ ln ∈ layoutRowChildren avail remaining totalFlex x cs,
        ∀ r ∈ rects ln, 0 ≤ r.w ∧ 0 ≤ r.h := by
  intro cs
  induction cs with
  | nil =>
    intro x _ ln hln
    rw [layoutRowChildren] at hln
    cases hln
  | cons c cs ih =>
    intro x hIH ln hln
    rw [layoutRowChildren] at hln
    rcases List.mem_cons.mp hln with rfl | hln'
    · refine hIH c (by simp) _ ?_ ?_
      · dsimp only
        split <;> omega
      · exact hh
    · exact ih _ (fun c' hc' => hIH c' (by simp [hc'])) ln hln'

theorem colChildren_rects_nonneg (avail : Rect) (remaining totalFlex : Int)
    (scrollable : Bool) (hw : 0 ≤ avail.w) (hrem : 0 ≤ remaining) :
    ∀ cs y, (∀ c ∈ cs, ∀ a : Rect, 0 ≤ a.w → 0 ≤ a.h →
        ∀ r ∈ rects (layout c a), 0 ≤ r.w ∧ 0 ≤ r.h) →
      ∀ ln ∈ (layoutColChildren avail remaining totalFlex scrollable y cs).1,
        ∀ r ∈ rects ln, 0 ≤ r.w ∧ 0 ≤ r.h := by
  intro cs
  induction cs with
  | nil =>
    intro y _ ln hln
    rw [layoutColChildren] at hln
    cases hln
  | cons c cs ih =>
    intro y hIH ln hln
    rw [layoutColChildren] at hln
    have hA : 0 ≤ (if 0 < flexWeight c ∧ 0 < totalFlex then
        Int.tdiv (remaining * flexWeight c) totalFlex else measureHeight c avail) := by
      split
      · next hcond => exact tdiv_nonneg' (mul_nonneg hrem (le_of_lt hcond.1)) (le_of_lt hcond.2)
      · exact measureHeight_nonneg c avail
    rcases List.mem_cons.mp hln with rfl | hln'
    · refine hIH c (by simp) _ hw ?_
      dsimp only
      split
      · exact hA
      · split <;> omega
    · exact ih _ (fun c' hc' => hIH c' (by simp [hc'])) ln hln'

/-- layoutColumn keeps the avail rect and produces children whose rect
trees are nonnegative (given the inductive hypothesis for children). -/
theorem layoutColumn_facts (t : NodeType) (p : Props) (cs : List Node) (avail : Rect)
    (hw : 0 ≤ avail.w) (hh : 0 ≤ avail.h)
    (ihm : ∀ c ∈ cs, ∀ a : Rect, 0 ≤ a.w → 0 ≤ a.h →
      ∀ r ∈ rects (layout c a), 0 ≤ r.w ∧ 0 ≤ r.h) :
    (layoutColumn (Node.mk t p cs) avail).rect = avail ∧
    ∀ c' ∈ (layoutColumn (Node.mk t p cs) avail).children,
      ∀ r' ∈ rects c', 0 ≤ r'.w ∧ 0 ≤ r'.h := by
  cases cs with
  | nil =>
    rw [layoutColumn]
    exact ⟨rfl, fun c' hc' => absurd hc' (List.not_mem_nil c')⟩
  | cons c0 cs0 =>
    rw [layoutColumn]
    refine ⟨rfl, ?_⟩
    simp only [LayoutNode.children]
    intro c' hc' r' hr'
    have hrem : (0 : Int) ≤ (if avail.h - (colTotalsAux (c0 :: cs0) avail 0 0).1 < 0 then 0
        else avail.h - (colTotalsAux (c0 :: cs0) avail 0 0).1) := by
      split <;> omega
    have hcol := colChildren_rects_nonneg avail
      (if avail.h - (colTotalsAux (c0 :: cs0) avail 0 0).1 < 0 then 0
        else avail.h - (colTotalsAux (c0 :: cs0) avail 0 0).1)
      ((colTotalsAux (c0 :: cs0) avail 0 0).2)
      (decide (0 < p.scrollOffset ∨ p.scrollToBottom = true)) hw hrem (c0 :: cs0) avail.y ihm
    have hite : ∀ (cond : Prop) (inst : Decidable cond) (A B : List LayoutNode)
        (x : LayoutNode), x ∈ (@ite _ cond inst A B) → x ∈ A ∨ x ∈ B := by
      intro cond inst A B x hx
      split at hx
      · exact Or.inl hx
      · exact Or.inr hx
    rcases hite _ _ _ _ _ hc' with hmapped | hplain
    · rcases List.mem_map.mp hmapped with ⟨c0', hc0', rfl⟩
      rcases rects_shiftY _ c0' r' hr' with ⟨r0, hr0, e1, e2⟩
      have hres := hcol c0' hc0' r0 hr0
      exact ⟨e1 ▸ hres.1, e2 ▸ hres.2⟩
    · exact hcol c' hplain r' hr'

/-- Every rect of a laid-out tree is nonnegative when the viewport is. -/
theorem layout_rects_nonneg : ∀ n, ∀ avail : Rect, 0 ≤ avail.w → 0 ≤ avail.h →
    ∀ r ∈ rects (layout n avail), 0 ≤ r.w ∧ 0 ≤ r.h := by
  refine nodeStrongInd (P := fun n => ∀ avail : Rect, 0 ≤ avail.w → 0 ≤ avail.h →
    ∀ r ∈ rects (layout n avail), 0 ≤ r.w ∧ 0 ≤ r.h) ?_
  intro t p cs ih avail hw hh r hr
  rw [layout] at hr
  rcases hd : layoutDispatch (Node.mk t p cs) avail with ⟨m, rd, cls⟩
  rw [hd] at hr
  have hdisp : (0 ≤ rd.w ∧ 0 ≤ rd.h) ∧
      ∀ c' ∈ cls, ∀ r' ∈ rects c', 0 ≤ r'.w ∧ 0 ≤ r'.h := by
    cases t with
    | TextNode =>
      simp only [layoutDispatch, Node.type] at hd
      rw [layoutText] at hd
      injection hd with h1 h2 h3
      subst h2
      subst h3
      refine ⟨⟨hw, ?_⟩, fun c' hc' => absurd hc' (List.not_mem_nil c')⟩
      dsimp only
      split <;> omega
    | SpacerNode =>
      simp only [layoutDispatch, Node.type] at hd
      injection hd with h1 h2 h3
      subst h2
      subst h3
      exact ⟨⟨hw, hh⟩, fun c' hc' => absurd hc' (List.not_mem_nil c')⟩
    | RowNode =>
      simp only [layoutDispatch, Node.type] at hd
      cases cs with
      | nil =>
        rw [layoutRow] at hd
        injection hd with h1 h2 h3
        subst h2
        subst h3
        exact ⟨⟨hw, hh⟩, fun c' hc' => absurd hc' (List.not_mem_nil c')⟩
      | cons c0 cs0 =>
        rw [layoutRow] at hd
        injection hd with h1 h2 h3
        subst h2
        subst h3
        refine ⟨⟨hw, hh⟩, ?_⟩
        intro c' hc' r' hr'
        exact rowChildren_rects_nonneg avail _ _ hh (c0 :: cs0) avail.x
          (fun c'' hc'' => ih c'' hc'') c' hc' r' hr'
    | BoxNode =>
      simp only [layoutDispatch, Node.type] at hd
      cases cs with
      | nil =>
        rw [layoutBox] at hd
        injection hd with h1 h2 h3
        subst h2
        subst h3
        exact ⟨⟨hw, hh⟩, fun c' hc' => absurd hc' (List.not_mem_nil c')⟩
      | cons c0 cs0 =>
        rw [layoutBox] at hd
        injection hd with h1 h2 h3
        subst h2
        subst h3
        refine ⟨⟨hw, hh⟩, ?_⟩
        intro c' hc' r' hr'
        have hc'' := List.mem_singleton.mp hc'
        subst hc''
        refine ih c0 (by simp) _ ?_ ?_ r' hr'
        · dsimp only
          split <;> omega
        · dsimp only
          split <;> omega
    | ColumnNode =>
      simp only [layoutDispatch, Node.type] at hd
      have hfacts := layoutColumn_facts NodeType.ColumnNode p cs avail hw hh
        (fun c'' hc'' => ih c'' hc'')
      rw [hd] at hfacts
      simp only [LayoutNode.rect, LayoutNode.children] at hfacts
      refine ⟨?_, hfacts.2⟩
      rw [hfacts.1]
      exact ⟨hw, hh⟩
    | ListNode =>
      simp only [layoutDispatch, Node.type] at hd
      have hfacts := layoutColumn_facts NodeType.ListNode p cs avail hw hh
        (fun c'' hc'' => ih c'' hc'')
      rw [hd] at hfacts
      simp only [LayoutNode.rect, LayoutNode.children] at hfacts
      refine ⟨?_, hfacts.2⟩
      rw [hfacts.1]
      exact ⟨hw, hh⟩
    | PaneNode =>
      simp only [layoutDispatch, Node.type] at hd
      have hfacts := layoutColumn_facts NodeType.PaneNode p cs avail hw hh
        (fun c'' hc'' => ih c'' hc'')
      rw [hd] at hfacts
      simp only [LayoutNode.rect, LayoutNode.children] at hfacts
      refine ⟨?_, hfacts.2⟩
      rw [hfacts.1]
      exact ⟨hw, hh⟩
  rw [mem_rects] at hr
  rcases hr with rfl | ⟨c', hc', hrc⟩
  · have h1 := hdisp.1.1
    have h2 := hdisp.1.2
    constructor
    · dsimp only
      split_ifs <;> (try dsimp only) <;> omega
    · dsimp only
      split_ifs <;> (try dsimp only) <;> omega
  · exact hdisp.2 c' hc' r hrc

/-- With no explicit width, the constraint step keeps the dispatched width. -/
theorem layout_rect_w_width_zero (n : Node) (avail : Rect) (h : n.props.width = 0) :
    (layout n avail).rect.w = (layoutDispatch n avail).rect.w := by
  rw [layout]
  rcases hd : layoutDispatch n avail with ⟨m, rd, cls⟩
  dsimp only [LayoutNode.rect]
  rw [h]
  simp only [lt_self_iff_false, false_and, if_false]
  split <;> rfl

/-- Text and Spacer nodes are dispatched to the full available width. -/
theorem layoutDispatch_rect_w_full (n : Node) (avail : Rect)
    (ht : n.type = NodeType.TextNode ∨ n.type = NodeType.SpacerNode) :
    (layoutDispatch n avail).rect.w = avail.w := by
  rcases n with ⟨t, p, cs⟩
  rcases ht with ht | ht <;> (simp only [Node.type] at ht; subst ht) <;>
    simp only [layoutDispatch, Node.type, layoutText, LayoutNode.rect]

/-- A Row node lays its children out in the amended claim's rects. -/
theorem layout_row_children_claimed (n : Node) (avail : Rect)
    (ht : n.type = NodeType.RowNode) :
    (layout n avail).children =
      List.zipWith layout n.children
        (claimedRowRects avail (max 0 (avail.w - sumIntrinsicW avail n.children))
          (sumFlexW n.children) n.children 0) := by
  rw [layout_children_eq]
  rcases n with ⟨t, p, cs⟩
  simp only [Node.type] at ht
  subst ht
  simp only [layoutDispatch, Node.type, Node.children]
  cases cs with
  | nil => rw [layoutRow, claimedRowRects]; rfl
  | cons c cs =>
    rw [layoutRow]
    simp only [LayoutNode.children]
    rw [rowTotalsAux_eq]
    simp only [zero_add]
    have hrem : (if avail.w - sumIntrinsicW avail (c :: cs) < 0 then 0
        else avail.w - sumIntrinsicW avail (c :: cs)) =
        max 0 (avail.w - sumIntrinsicW avail (c :: cs)) := by
      split <;> omega
    rw [hrem]
    have h2 := layoutRowChildren_eq_claimed avail
      (max 0 (avail.w - sumIntrinsicW avail (c :: cs))) (sumFlexW (c :: cs)) (c :: cs) 0
      (fun c' hc' hf => sumFlexW_pos_of_mem _ c' hc' hf)
    rw [add_zero] at h2
    exact h2

/-! ## Claims -/

/-- C4: for a byte sequence beginning ESC [ on which no parseCSI rule and
no paste-marker rule matches, and whose CSI payload has a final byte
(first byte in 0x40..0x7E after any non-final bytes), the parser skips
through that final byte, emits nothing for those bytes, and resumes at
the byte after it. -/
theorem C4_unknown_csi_skipped (pre post : List Nat) (fb : Nat)
    (hnopaste : startsWith [0x32, 0x30, 0x30, 0x7e] (pre ++ fb :: post) = false)
    (hcsi : (parseCSI (pre ++ fb :: post)).2 = 0)
    (hpre : ∀ x ∈ pre, ¬(0x40 ≤ x ∧ x ≤ 0x7e))
    (hfb : 0x40 ≤ fb ∧ fb ≤ 0x7e) :
    parseInput (0x1b :: 0x5b :: (pre ++ fb :: post)) = parseInput post := by
  have hskip : skipCSI (pre ++ fb :: post) = pre.length + 1 := by
    unfold skipCSI
    rw [skipCSIAux_spec pre fb post hpre hfb 0]
    omega
  have hstep := parseStep_unknown_csi (pre ++ fb :: post) hnopaste hcsi (by omega)
  rw [hskip] at hstep
  rw [parseInput_emit _ _ _ hstep]
  have hdrop : (0x1b :: 0x5b :: (pre ++ fb :: post)).drop (2 + (pre.length + 1)) = post := by
    have h1 : pre ++ fb :: post = (pre ++ [fb]) ++ post := by simp
    have h2 : (0x1b :: 0x5b :: (pre ++ fb :: post)).drop (2 + (pre.length + 1)) =
        (pre ++ fb :: post).drop (pre.length + 1) := by
      simp [List.drop, Nat.add_comm]
    rw [h2, h1]
    have h3 : (pre ++ [fb]).length = pre.length + 1 := by simp
    calc ((pre ++ [fb]) ++ post).drop (pre.length + 1)
        = ((pre ++ [fb]) ++ post).drop ((pre ++ [fb]).length + 0) := by rw [h3]
      _ = post.drop 0 := drop_len_append _ _ 0
      _ = post := List.drop_zero post
  rw [hdrop]
  simp

/-- C4 witness: ESC [ 1 8 ~ (an unrecognized CSI with final byte '~') is
skipped entirely: the hypotheses of the theorem hold and the whole
sequence parses to no events. -/
theorem C4_witness :
    startsWith [0x32, 0x30, 0x30, 0x7e] [0x31, 0x38, 0x7e] = false ∧
    (parseCSI [0x31, 0x38, 0x7e]).2 = 0 ∧
    (∀ x ∈ [0x31, 0x38], ¬(0x40 ≤ x ∧ x ≤ 0x7e)) ∧
    (0x40 ≤ 0x7e ∧ 0x7e ≤ 0x7e) ∧
    parseInput [0x1b, 0x5b, 0x31, 0x38, 0x7e] = parseInput [] :=
  ⟨by decide, by decide, by decide, by decide,
    C4_unknown_csi_skipped [0x31, 0x38] [] 0x7e (by decide) (by decide) (by decide) (by decide)⟩

/-- C5 (amended): a byte ≥ 0x20 that is an invalid UTF-8 lead byte
(0x80..0xBF, or ≥ 0xF8), or a valid lead byte whose declared sequence
length exceeds the remaining buffer, decodes as the replacement character
'?' (0x3F) over exactly one byte and is emitted as a RuneKey event.
(Invalid continuation bytes are NOT detected: a valid lead consumes its
declared length regardless of what follows — see the counterexample.) -/
theorem C5_invalid_utf8 (b : Nat) (rest : List Nat) (hb : 0x20 ≤ b)
    (hbad : (0x80 ≤ b ∧ b &&& 0xe0 ≠ 0xc0 ∧ b &&& 0xf0 ≠ 0xe0 ∧ b &&& 0xf8 ≠ 0xf0)
      ∨ (b &&& 0xe0 = 0xc0 ∧ (b :: rest).length < 2)
      ∨ (b &&& 0xf0 = 0xe0 ∧ (b :: rest).length < 3)
      ∨ (b &&& 0xf8 = 0xf0 ∧ (b :: rest).length < 4)) :
    decodeRune (b :: rest) = (0x3f, 1) ∧
    parseInput (b :: rest) = ⟨KeyType.RuneKey, 0x3f, []⟩ :: parseInput rest := by
  have hb80 : 0x80 ≤ b := by
    rcases hbad with ⟨h, -⟩ | ⟨h, -⟩ | ⟨h, -⟩ | ⟨h, -⟩
    · exact h
    all_goals {
      have := Nat.and_le_left (n := b) (m := 0xe0)
      have := Nat.and_le_left (n := b) (m := 0xf0)
      have := Nat.and_le_left (n := b) (m := 0xf8)
      omega }
  have hdec : decodeRune (b :: rest) = (0x3f, 1) := by
    rcases hbad with ⟨-, h1, h2, h3⟩ | ⟨h1, hlen⟩ | ⟨h1, hlen⟩ | ⟨h1, hlen⟩
    · simp only [decodeRune]
      rw [if_neg (by omega), if_neg h1, if_neg h2, if_neg h3]
    · simp only [decodeRune]
      rw [if_neg (by omega), if_pos h1]
      unfold decodeRuneTail
      rw [if_pos hlen]
    · have he : b &&& 0xe0 = 0xe0 := by
        rw [show (0xe0 : Nat) = 0xf0 &&& 0xe0 from rfl, ← Nat.and_assoc, h1]
        decide
      simp only [decodeRune]
      rw [if_neg (by omega), if_neg (by omega), if_pos h1]
      unfold decodeRuneTail
      rw [if_pos hlen]
    · have he : b &&& 0xe0 = 0xe0 := by
        rw [show (0xe0 : Nat) = 0xf8 &&& 0xe0 from rfl, ← Nat.and_assoc, h1]
        decide
      have hf : b &&& 0xf0 = 0xf0 := by
        rw [show (0xf0 : Nat) = 0xf8 &&& 0xf0 from rfl, ← Nat.and_assoc, h1]
        decide
      simp only [decodeRune]
      rw [if_neg (by omega), if_neg (by omega), if_neg (by omega), if_pos h1]
      unfold decodeRuneTail
      rw [if_pos hlen]
  refine ⟨hdec, ?_⟩
  have hstep := parseStep_rune b rest hb80
  rw [hdec] at hstep
  rw [parseInput_emit _ _ _ hstep]
  simp

/-- C5 witness: the lone byte 0x80 (an invalid lead byte) satisfies the
hypotheses and parses to the replacement rune '?' over one byte. -/
theorem C5_witness :
    ((0x20 : Nat) ≤ 0x80 ∧ (0x80 : Nat) &&& 0xe0 ≠ 0xc0 ∧ (0x80 : Nat) &&& 0xf0 ≠ 0xe0 ∧
      (0x80 : Nat) &&& 0xf8 ≠ 0xf0) ∧
    parseInput [0x80] = ⟨KeyType.RuneKey, 0x3f, []⟩ :: parseInput [] :=
  ⟨⟨by decide, by decide, by decide, by decide⟩,
    (C5_invalid_utf8 0x80 [] (by decide) (Or.inl (by decide))).2⟩

/-- C5 counterexample: [0xC3, 0x41] is not valid UTF-8 (0x41 is not a
continuation byte), yet the parser does not decode '?' over one byte: it
consumes both bytes and emits the garbage rune 0xC1. -/
theorem C5_counterexample :
    decodeRune [0xc3, 0x41] = (0xc1, 2) ∧ ((0xc1 : Nat) ≠ 0x3f ∧ (2 : Nat) ≠ 1) ∧
    parseInput [0xc3, 0x41] = [⟨KeyType.RuneKey, 0xc1, []⟩] := by
  refine ⟨by decide, ⟨by decide, by decide⟩, ?_⟩
  rw [parseInput_emit _ [⟨KeyType.RuneKey, 0xc1, []⟩] 2 (by decide)]
  simp [parseInput_nil]

/-- C7: for every node and available rect, an explicit width or height
(a value > 0) on the node shrinks the rect computed by the layout dispatch
to min(computed, explicit) and never grows it; otherwise (0 or negative)
the computed dimension is kept unchanged. -/
theorem C7_explicit_size_shrinks (n : Node) (avail : Rect) :
    (layout n avail).rect.w =
      (if 0 < n.props.width then min ((layoutDispatch n avail).rect.w) n.props.width
       else (layoutDispatch n avail).rect.w) ∧
    (layout n avail).rect.h =
      (if 0 < n.props.height then min ((layoutDispatch n avail).rect.h) n.props.height
       else (layoutDispatch n avail).rect.h) := by
  rcases hd : layoutDispatch n avail with ⟨m, r, cs⟩
  rw [layout, hd]
  simp only [LayoutNode.rect]
  constructor <;> (split_ifs <;> simp_all <;> omega)

/-- C8 (amended): at startup App.Run emits, in order, enter-alt-screen,
hide-cursor, enable-focus-reporting, enable-mouse-reporting (basic + SGR)
and clear-screen; its deferred teardown emits the reverse (disable mouse,
disable focus, show cursor, leave alt screen). Run never emits the
bracketed-paste enable/disable sequences. -/
theorem C8_startup_teardown :
    String.join runStartupWrites = "\x1b[?1049h\x1b[?25l\x1b[?1004h\x1b[?1000h\x1b[?1006h\x1b[2J" ∧
    String.join runTeardownWrites = "\x1b[?1006l\x1b[?1000l\x1b[?1004l\x1b[?25h\x1b[?1049l" ∧
    containsSub ((String.join runStartupWrites).toList ++ (String.join runTeardownWrites).toList)
      enableBracketedPasteSeq.toList = false ∧
    containsSub ((String.join runStartupWrites).toList ++ (String.join runTeardownWrites).toList)
      disableBracketedPasteSeq.toList = false := by
  refine ⟨rfl, rfl, ?_, ?_⟩ <;> decide

/-- C8 counterexample: contrary to the claim, App.Run emits no
bracketed-paste enable at startup and no bracketed-paste disable at
teardown — the sequences ESC[?2004h / ESC[?2004l occur nowhere in the
startup or teardown write streams. -/
theorem C8_counterexample :
    containsSub (String.join runStartupWrites).toList enableBracketedPasteSeq.toList = false ∧
    containsSub (String.join runTeardownWrites).toList disableBracketedPasteSeq.toList = false := by
  constructor <;> decide

/-- C1 (amended): for every string and every width w > 0, wrapping is
greedy (fit test current_len + 1 + word_len ≤ w; on misfit the new line is
the preserved indent plus that word), and every produced line either
measures at most w runes or consists of a paragraph's preserved indent
followed by at most one word — in particular a word longer than w appears
unbroken (with its indent) on its own line.  The original exception
("unless a single word is longer than w") is too narrow: indent + word can
exceed w even when the word alone does not (see the counterexample). -/
theorem C1_wrap_conservative (s : List Char) (w : Int) (hw : 0 < w) :
    WrapConservative s w := by
  constructor
  · intro l hl
    unfold wrapText at hl
    rw [if_neg (by omega)] at hl
    by_cases hs : s = []
    · rw [if_pos hs] at hl
      simp at hl
      subst hl
      left
      simp
      omega
    · rw [if_neg hs] at hl
      rcases List.mem_flatMap.mp hl with ⟨p, hp, hlp⟩
      rcases wrapPara_mem _ _ _ hlp with h | h | h
      · left
        omega
      · exact Or.inr ⟨p, hp, Or.inl h⟩
      · exact Or.inr ⟨p, hp, Or.inr h⟩
  · intro leading line len wd ws hlen
    subst hlen
    rfl

/-- C1 witness: the hypothesis 0 < 11 holds and the wrap property follows
at s = "hello world foo", w = 11. -/
theorem C1_witness :
    (0 : Int) < 11 ∧
      WrapConservative
        ['h','e','l','l','o',' ','w','o','r','l','d',' ','f','o','o'] 11 :=
  ⟨by decide,
    C1_wrap_conservative ['h','e','l','l','o',' ','w','o','r','l','d',' ','f','o','o'] 11
      (by decide)⟩

/-- C1 counterexample: for s = "  abc" and w = 4 the input contains no
word longer than 4 runes, yet wrapText produces the 5-rune line "  abc"
(preserved indent + word): the claim as stated is false. -/
theorem C1_counterexample :
    ¬((∀ l ∈ wrapText [' ',' ','a','b','c'] 4, (l.length : Int) ≤ 4) ∨
      ∃ p ∈ splitOnNl [' ',' ','a','b','c'],
        ∃ wd ∈ goFields (trimmedOf p), 4 < (wd.length : Int)) := by
  decide

/-- C9: wrapText normalizes intra-paragraph whitespace: within each
paragraph, after the preserved indent, the words appear unchanged and in
order, joined by single spaces inside each output line (interior
whitespace runs collapse to a single space or to a line break); hence for
an input with consecutive interior spaces, joining the output lines does
not reproduce the input, e.g. "a  b" wraps to the single line "a b". -/
theorem C9_whitespace_normalized (s : List Char) (w : Int) (hw : 0 < w) :
    WrapNormalized s w ∧
    wrapText ['a',' ',' ','b'] 80 = [['a',' ','b']] ∧
    List.intercalate ['\n'] (wrapText ['a',' ',' ','b'] 80) ≠ ['a',' ',' ','b'] := by
  refine ⟨⟨?_, ?_⟩, by decide, by decide⟩
  · unfold wrapText
    rw [if_neg (by omega)]
    by_cases hs : s = []
    · rw [if_pos hs, hs]
      rfl
    · rw [if_neg hs]
  · intro p _
    exact ⟨wrapPara_no_words w.toNat p, wrapPara_structure w.toNat p⟩

/-- C9 witness: the hypothesis 0 < 10 holds and the normalization property
follows at s = "  a  b" (indent two spaces, double interior space). -/
theorem C9_witness :
    (0 : Int) < 10 ∧
      (WrapNormalized [' ',' ','a',' ',' ','b'] 10 ∧
        wrapText ['a',' ',' ','b'] 80 = [['a',' ','b']] ∧
        List.intercalate ['\n'] (wrapText ['a',' ',' ','b'] 80) ≠ ['a',' ',' ','b']) :=
  ⟨by decide, C9_whitespace_normalized [' ',' ','a',' ',' ','b'] 10 (by decide)⟩

/-- C2 (amended): when the open marker is reached cleanly the claim holds:
a buffer that begins with the open marker, whose inner text contains no
close marker, parses to exactly one Paste event carrying the inner bytes,
followed by the parse of the bytes after the close marker; and when the
paste spans two reads (first chunk = open marker ++ a, not ending in ESC;
second chunk = b ++ close marker ++ rest), the chunked parser buffers and
emits exactly one Paste(a ++ b) followed by the parse of the rest.  The
original claim, quantified over ALL byte sequences containing the markers,
is false: bytes before the open marker can consume into it (see the
counterexample). -/
theorem C2_paste_event (inner rest a b rest2 : List Nat)
    (hinner : indexBytes inner pasteEnd = none)
    (hlast : ∀ x, a.getLast? = some x → x ≠ 0x1b)
    (hab : indexBytes (a ++ b) pasteEnd = none) :
    parseInput (pasteStart ++ inner ++ pasteEnd ++ rest) =
      ⟨KeyType.Paste, 0, inner⟩ :: parseInput rest ∧
    processChunks none [pasteStart ++ a, b ++ pasteEnd ++ rest2] =
      some (⟨KeyType.Paste, 0, a ++ b⟩ :: parseInput rest2) := by
  refine ⟨parseInput_paste inner rest hinner, ?_⟩
  have hA : indexBytes a pasteEnd = none :=
    indexBytes_none_of_append pasteEnd (by simp [pasteEnd]) a b hab
  rw [show processChunks none [pasteStart ++ a, b ++ pasteEnd ++ rest2] =
      (match processChunk none (pasteStart ++ a) with
       | none => none
       | some (ks, st') => (processChunks st' [b ++ pasteEnd ++ rest2]).map
           (fun tail => ks ++ tail)) from rfl]
  rw [processChunk_open a hlast hA]
  show (processChunks (some a) [b ++ pasteEnd ++ rest2]).map (fun tail => [] ++ tail) = _
  rw [show processChunks (some a) [b ++ pasteEnd ++ rest2] =
      (match processChunk (some a) (b ++ pasteEnd ++ rest2) with
       | none => none
       | some (ks, st') => (processChunks st' []).map (fun tail => ks ++ tail)) from rfl]
  rw [processChunk_close a b rest2 hab]
  show (((processChunks none []).map
      (fun tail => (⟨KeyType.Paste, 0, a ++ b⟩ :: parseInput rest2) ++ tail)).map
      (fun tail => [] ++ tail)) = _
  simp [processChunks]

/-- C2 witness: the single-buffer paste ESC[200~hi ESC[201~ A and the
spec's cross-read scenario (chunk 1 = open ++ "par", chunk 2 = "tial" ++
close) satisfy the hypotheses, giving Paste("hi") then the parse of "A",
and exactly one Paste("partial"). -/
theorem C2_witness :
    (indexBytes [0x68, 0x69] pasteEnd = none ∧
      (∀ x, ([0x70, 0x61, 0x72] : List Nat).getLast? = some x → x ≠ 0x1b) ∧
      indexBytes ([0x70, 0x61, 0x72] ++ [0x74, 0x69, 0x61, 0x6c]) pasteEnd = none) ∧
    parseInput (pasteStart ++ [0x68, 0x69] ++ pasteEnd ++ [0x41]) =
      ⟨KeyType.Paste, 0, [0x68, 0x69]⟩ :: parseInput [0x41] ∧
    processChunks none [pasteStart ++ [0x70, 0x61, 0x72],
        [0x74, 0x69, 0x61, 0x6c] ++ pasteEnd ++ []] =
      some (⟨KeyType.Paste, 0, [0x70, 0x61, 0x72] ++ [0x74, 0x69, 0x61, 0x6c]⟩ ::
        parseInput []) :=
  ⟨⟨by decide, by decide, by decide⟩,
    C2_paste_event [0x68, 0x69] [0x41] [0x70, 0x61, 0x72] [0x74, 0x69, 0x61, 0x6c] []
      (by decide) (by decide) (by decide)⟩

/-- C2 counterexample: the byte sequence 0xF0 ++ open marker ++ close
marker contains a well-formed open marker followed by a close marker, yet
parseInput produces NO Paste event: the 0xF0 lead byte consumes the ESC [
2 of the open marker as UTF-8 continuation bytes, destroying the marker. -/
theorem C2_counterexample :
    [0xf0, 0x1b, 0x5b, 0x32, 0x30, 0x30, 0x7e, 0x1b, 0x5b, 0x32, 0x30, 0x31, 0x7e]
        = 0xf0 :: (pasteStart ++ pasteEnd) ∧
    parseInput [0xf0, 0x1b, 0x5b, 0x32, 0x30, 0x30, 0x7e, 0x1b, 0x5b, 0x32, 0x30, 0x31, 0x7e] =
      [⟨KeyType.RuneKey, 112370, []⟩, ⟨KeyType.RuneKey, 0x30, []⟩,
        ⟨KeyType.RuneKey, 0x30, []⟩, ⟨KeyType.RuneKey, 0x7e, []⟩] ∧
    (∀ k ∈ [Key.mk KeyType.RuneKey 112370 [], Key.mk KeyType.RuneKey 0x30 [],
        Key.mk KeyType.RuneKey 0x30 [], Key.mk KeyType.RuneKey 0x7e []],
      k.type ≠ KeyType.Paste) := by
  refine ⟨by decide, ?_, by decide⟩
  rw [parseInput_emit _ [⟨KeyType.RuneKey, 112370, []⟩] 4 (by decide),
    (by decide :
      List.drop 4 [0xf0, 0x1b, 0x5b, 0x32, 0x30, 0x30, 0x7e, 0x1b, 0x5b, 0x32, 0x30, 0x31, 0x7e] =
      [0x30, 0x30, 0x7e, 0x1b, 0x5b, 0x32, 0x30, 0x31, 0x7e])]
  rw [parseInput_emit _ [⟨KeyType.RuneKey, 0x30, []⟩] 1 (by decide),
    (by decide :
      List.drop 1 [0x30, 0x30, 0x7e, 0x1b, 0x5b, 0x32, 0x30, 0x31, 0x7e] =
      [0x30, 0x7e, 0x1b, 0x5b, 0x32, 0x30, 0x31, 0x7e])]
  rw [parseInput_emit _ [⟨KeyType.RuneKey, 0x30, []⟩] 1 (by decide),
    (by decide :
      List.drop 1 [0x30, 0x7e, 0x1b, 0x5b, 0x32, 0x30, 0x31, 0x7e] =
      [0x7e, 0x1b, 0x5b, 0x32, 0x30, 0x31, 0x7e])]
  rw [parseInput_emit _ [⟨KeyType.RuneKey, 0x7e, []⟩] 1 (by decide),
    (by decide :
      List.drop 1 [0x7e, 0x1b, 0x5b, 0x32, 0x30, 0x31, 0x7e] =
      [0x1b, 0x5b, 0x32, 0x30, 0x31, 0x7e])]
  rw [parseInput_emit _ [] 6 (by decide),
    (by decide : List.drop 6 [0x1b, 0x5b, 0x32, 0x30, 0x31, 0x7e] = ([] : List Nat)),
    parseInput_nil]
  rfl

/-- C10: Layout preserves tree structure for containers: a Row, Column,
List or Pane layout node has exactly one positioned child per input child,
in the same order (none when there are no children); a Box node with at
least one child has exactly one positioned child, for the first input
child. -/
theorem C10_structure_preserved (n : Node) (avail : Rect) :
    ((n.type = NodeType.RowNode ∨ n.type = NodeType.ColumnNode ∨
        n.type = NodeType.ListNode ∨ n.type = NodeType.PaneNode) →
      (layout n avail).children.map LayoutNode.node = n.children) ∧
    (n.type = NodeType.BoxNode → n.children ≠ [] →
      (layout n avail).children.map LayoutNode.node = n.children.take 1) := by
  rw [layout_children_eq]
  rcases n with ⟨t, p, cs⟩
  constructor
  · intro ht
    have hcol : ∀ (q : Props) (cs' : List Node),
        (layoutColumn (Node.mk t q cs') avail).children.map LayoutNode.node = cs' := by
      intro q cs'
      cases cs' with
      | nil => rw [layoutColumn]; rfl
      | cons c cs' =>
        have hmap : ∀ (c0 : Prop) (inst : Decidable c0) (d : Int) (l : List LayoutNode),
            (@ite _ c0 inst (l.map (shiftY d)) l).map LayoutNode.node =
              l.map LayoutNode.node := by
          intro c0 inst d l
          split
          · rw [List.map_map,
              show LayoutNode.node ∘ shiftY d = LayoutNode.node from
                funext fun ln => shiftY_node d ln]
          · rfl
        rw [layoutColumn]
        simp only [LayoutNode.children]
        rw [hmap]
        exact layoutColChildren_map_node _ _ _ _ _ _
    rcases ht with ht | ht | ht | ht <;>
      (simp only [Node.type] at ht; subst ht;
       simp only [layoutDispatch, Node.type, Node.children])
    · cases cs with
      | nil => rw [layoutRow]; rfl
      | cons c cs =>
        rw [layoutRow]
        simp only [LayoutNode.children]
        exact layoutRowChildren_map_node _ _ _ _ _
    all_goals exact hcol p cs
  · intro ht hne
    simp only [Node.type] at ht
    subst ht
    simp only [layoutDispatch, Node.type, Node.children] at hne ⊢
    cases cs with
    | nil => exact absurd rfl hne
    | cons c cs =>
      rw [layoutBox]
      simp only [LayoutNode.children, List.map_cons, List.map_nil, layout_node, List.take]

/-- C10 witness: a concrete Row keeps its two children in order; a Box
keeps exactly its first child. -/
theorem C10_witness :
    ((Node.mk NodeType.RowNode {} [textN ['a'], spacerN]).type = NodeType.RowNode ∨
      (Node.mk NodeType.RowNode {} [textN ['a'], spacerN]).type = NodeType.ColumnNode ∨
      (Node.mk NodeType.RowNode {} [textN ['a'], spacerN]).type = NodeType.ListNode ∨
      (Node.mk NodeType.RowNode {} [textN ['a'], spacerN]).type = NodeType.PaneNode) ∧
    (layout (Node.mk NodeType.RowNode {} [textN ['a'], spacerN]) ⟨0, 0, 8, 2⟩).children.map
        LayoutNode.node = (Node.mk NodeType.RowNode {} [textN ['a'], spacerN]).children :=
  ⟨Or.inl rfl,
    (C10_structure_preserved (Node.mk NodeType.RowNode {} [textN ['a'], spacerN])
      ⟨0, 0, 8, 2⟩).1 (Or.inl rfl)⟩

/-- C3 (amended): a Row's children are laid out in the rects of
claimedRowRects: non-flex children get their intrinsic measured width and
flex children floor(remaining × weight / total_flex) — where remaining =
avail.w minus the intrinsic total, clamped at zero — except that each
width is further clamped to the space still left in the row (and to ≥ 0);
the original claim omitted that per-child clamp (see the counterexample).
In particular Row(Text "ab", Spacer, Text "x" flex 2) in a 20×1 viewport
gives child widths [2, 6, 12]. -/
theorem C3_row_allocation (n : Node) (avail : Rect) (ht : n.type = NodeType.RowNode) :
    (layout n avail).children =
      List.zipWith layout n.children
        (claimedRowRects avail (max 0 (avail.w - sumIntrinsicW avail n.children))
          (sumFlexW n.children) n.children 0) ∧
    (Layout (rowN [textN ['a','b'], spacerN, (textN ['x']).withFlex 2]) 20 1).children.map
        (fun ln => ln.rect.w) = [2, 6, 12] := by
  refine ⟨layout_row_children_claimed n avail ht, ?_⟩
  have hcr : claimedRowRects ⟨0, 0, 20, 1⟩
      (max 0 ((20 : Int) - sumIntrinsicW ⟨0, 0, 20, 1⟩
        [textN ['a','b'], spacerN, (textN ['x']).withFlex 2]))
      (sumFlexW [textN ['a','b'], spacerN, (textN ['x']).withFlex 2])
      [textN ['a','b'], spacerN, (textN ['x']).withFlex 2] 0 =
      [⟨0, 0, 2, 1⟩, ⟨2, 0, 6, 1⟩, ⟨8, 0, 12, 1⟩] := by decide
  rw [Layout, layout_row_children_claimed
    (rowN [textN ['a','b'], spacerN, (textN ['x']).withFlex 2]) ⟨0, 0, 20, 1⟩ rfl]
  dsimp only [rowN, Node.children]
  rw [hcr]
  simp only [List.zipWith, List.map]
  rw [layout_rect_w_width_zero (textN ['a','b']) ⟨0, 0, 2, 1⟩ rfl,
    layoutDispatch_rect_w_full (textN ['a','b']) ⟨0, 0, 2, 1⟩ (Or.inl rfl),
    layout_rect_w_width_zero spacerN ⟨2, 0, 6, 1⟩ rfl,
    layoutDispatch_rect_w_full spacerN ⟨2, 0, 6, 1⟩ (Or.inr rfl),
    layout_rect_w_width_zero ((textN ['x']).withFlex 2) ⟨8, 0, 12, 1⟩ rfl,
    layoutDispatch_rect_w_full ((textN ['x']).withFlex 2) ⟨8, 0, 12, 1⟩ (Or.inl rfl)]

/-- C3 witness: the Row hypothesis holds for the scenario node and the
allocation equation follows for it. -/
theorem C3_witness :
    (rowN [textN ['a','b'], spacerN, (textN ['x']).withFlex 2]).type = NodeType.RowNode ∧
    (layout (rowN [textN ['a','b'], spacerN, (textN ['x']).withFlex 2]) ⟨0, 0, 20, 1⟩).children =
      List.zipWith layout (rowN [textN ['a','b'], spacerN, (textN ['x']).withFlex 2]).children
        (claimedRowRects ⟨0, 0, 20, 1⟩
          (max 0 ((20 : Int) - sumIntrinsicW ⟨0, 0, 20, 1⟩
            (rowN [textN ['a','b'], spacerN, (textN ['x']).withFlex 2]).children))
          (sumFlexW (rowN [textN ['a','b'], spacerN, (textN ['x']).withFlex 2]).children)
          (rowN [textN ['a','b'], spacerN, (textN ['x']).withFlex 2]).children 0) :=
  ⟨rfl,
    (C3_row_allocation (rowN [textN ['a','b'], spacerN, (textN ['x']).withFlex 2])
      ⟨0, 0, 20, 1⟩ rfl).1⟩

/-- C3 counterexample: in Row(Text "aaaa", Text "bb") at width 5 the
second child's intrinsic measured width is 2, but it is allocated only
the single remaining column: children are NOT always allocated their
intrinsic width. -/
theorem C3_counterexample :
    measureWidth (textN ['b','b']) ⟨0, 0, 5, 1⟩ = 2 ∧
    (Layout (rowN [textN ['a','a','a','a'], textN ['b','b']]) 5 1).children.map
      (fun ln => ln.rect.w) = [4, 1] := by
  refine ⟨by decide, ?_⟩
  have hcr : claimedRowRects ⟨0, 0, 5, 1⟩
      (max 0 ((5 : Int) - sumIntrinsicW ⟨0, 0, 5, 1⟩
        [textN ['a','a','a','a'], textN ['b','b']]))
      (sumFlexW [textN ['a','a','a','a'], textN ['b','b']])
      [textN ['a','a','a','a'], textN ['b','b']] 0 =
      [⟨0, 0, 4, 1⟩, ⟨4, 0, 1, 1⟩] := by decide
  rw [Layout, layout_row_children_claimed
    (rowN [textN ['a','a','a','a'], textN ['b','b']]) ⟨0, 0, 5, 1⟩ rfl]
  dsimp only [rowN, Node.children]
  rw [hcr]
  simp only [List.zipWith, List.map]
  rw [layout_rect_w_width_zero (textN ['a','a','a','a']) ⟨0, 0, 4, 1⟩ rfl,
    layoutDispatch_rect_w_full (textN ['a','a','a','a']) ⟨0, 0, 4, 1⟩ (Or.inl rfl),
    layout_rect_w_width_zero (textN ['b','b']) ⟨4, 0, 1, 1⟩ rfl,
    layoutDispatch_rect_w_full (textN ['b','b']) ⟨4, 0, 1, 1⟩ (Or.inl rfl)]

/-- C6: for every node tree and every viewport (a terminal size, so
nonnegative width and height), every rect in the LayoutNode tree returned
by Layout has w ≥ 0 and h ≥ 0. -/
theorem C6_rects_nonneg (root : Node) (termW termH : Int)
    (hw : 0 ≤ termW) (hh : 0 ≤ termH) :
    ∀ r ∈ rects (Layout root termW termH), 0 ≤ r.w ∧ 0 ≤ r.h :=
  layout_rects_nonneg root ⟨0, 0, termW, termH⟩ hw hh

/-- C6 witness: a mixed tree (box, scrolled column, flex row, overflowing
text) in an 11×3 viewport — the viewport hypotheses hold and every rect is
nonnegative. -/
theorem C6_witness :
    (0 : Int) ≤ 11 ∧ (0 : Int) ≤ 3 ∧
    ∀ r ∈ rects (Layout
      (boxN (columnN [textN ['h','e','l','l','o',' ','w','o','r','l','d'],
        rowN [spacerN, (textN ['x']).withFlex 2],
        (columnN [textN ['a'], textN ['b']]).withScrollOffset 1])) 11 3),
      0 ≤ r.w ∧ 0 ≤ r.h :=
  ⟨by decide, by decide,
    C6_rects_nonneg
      (boxN (columnN [textN ['h','e','l','l','o',' ','w','o','r','l','d'],
        rowN [spacerN, (textN ['x']).withFlex 2],
        (columnN [textN ['a'], textN ['b']]).withScrollOffset 1])) 11 3
      (by decide) (by decide)⟩

end Tooey
